import Mathlib

/-!
# byte-slide (hutch): the instruction store and the decode-iteration driver

A shallow embedding of `src/src/hutch.cpp` / `src/include/hutch.hpp`.

* `Hutch_Instructions::dumpAsm` and `Hutch_Instructions::dumpPcode` become functions
  from the vector `instructions` (a `List Instruction`) to `Option (List Instruction)`.
  The result is `none` exactly when the C++ code evaluates `instructions[index]` with
  `index = instructions.size()`: `std::vector::operator[]` has no defined behaviour
  there, so the model assigns no resulting store to such a call.
* `Hutch::disassemble` becomes a pair of fuel-indexed loops over a decoder that is a
  parameter of the model (the Sleigh translator is an external library).  Its `int`
  counters are integers that must stay in the range of `int`: a run in which one would
  leave that range ends as `intOverflow`.
* `Hutch::disassemble_iter` becomes a function that takes and returns the pair of its
  function-local static variables, which every session shares.
* `Hutch_Instructions::operator()` and `DefaultLoadImage::loadFill` become functions whose
  result tells a read outside the vector or the buffer apart from a value.
-/

namespace Hutch

/-! ## Data model -/

/-- Modelled from the spec: the operand descriptor `VarnodeData` is declared in the
decoder library, which is absent from the sources; it is an address-space id, an
offset and a size. -/
structure VarnodeData where
  space : Nat
  offset : Nat
  size : Nat
deriving DecidableEq, Repr

/-- Modelled from the spec: `PcodeData` (one micro-operation) is declared in the decoder
library, which is absent from the sources.  It carries the operation code, the
optional output and the input sequence; two values are equal iff all three are equal
(this is the equality `std::find` uses in `dumpPcode`). -/
structure PcodeData where
  opc : Nat
  outvar : Option VarnodeData
  invar : List VarnodeData
deriving DecidableEq, Repr

/-- The record `Hutch_Instructions::Instruction` of `hutch.hpp`: `address` is a `uintb`,
`assembly` defaults to the empty string, `pcode` to the empty vector. -/
structure Instruction where
  address : Nat
  assembly : String
  pcode : List PcodeData
deriving DecidableEq, Repr

/-! ## The instruction store -/

/-- The call `std::lower_bound (instructions.begin (), instructions.end (), address)` with
`Instruction::operator< (const uintb&)`, as a distance from `begin ()`: the furthermost
position `i` such that every record before `i` has `address` below the searched one.
This is the value the C++ standard prescribes for `std::lower_bound`, whichever way
the library searches for it. -/
def lower_bound : List Instruction → Nat → Nat
  | [], _ => 0
  | r :: rs, address => if r.address < address then lower_bound rs address + 1 else 0

/-- The call `instructions.insert (instructions.begin () + index, insn)`. -/
def insert (instructions : List Instruction) (index : Nat) (insn : Instruction) :
    List Instruction :=
  instructions.take index ++ insn :: instructions.drop index

/-- The last four lines of `dumpAsm` and of `dumpPcode`: read `instructions[index]` at the
`lower_bound` position and insert `insn` there unless that record already has the
address.  The read is outside the vector when `index = instructions.size ()`; the
result is then `none`. -/
def insertAtLowerBound (instructions : List Instruction) (insn : Instruction) :
    Option (List Instruction) :=
  let index := lower_bound instructions insn.address
  match instructions[index]? with
  | none => none
  | some r =>
    if r.address ≠ insn.address then some (insert instructions index insn)
    else some instructions

/-- The `for` loop of `Hutch_Instructions::dumpAsm` (hutch.cpp 340-349) over the records
from position `i` on.  `some v` : the loop executed `return` and the records are now `v`;
`none` : the loop ran to the end (it changes nothing in that case). -/
def dumpAsmLoop : List Instruction → Nat → String → Option (List Instruction)
  | [], _, _ => none
  | r :: rs, address, text =>
    if r.address = address ∧ r.assembly = text then some (r :: rs)
    else if r.address = address ∧ r.assembly = "" then
      some ({ r with assembly := text } :: rs)
    else (dumpAsmLoop rs address text).map (fun v => r :: v)

/-- The function `Hutch_Instructions::dumpAsm` (hutch.cpp 328-361). -/
def dumpAsm (instructions : List Instruction) (addr : Nat) (mnem body : String) :
    Option (List Instruction) :=
  let text := mnem ++ " " ++ body
  if instructions.isEmpty then
    some [{ address := addr, assembly := text, pcode := [] }]
  else
    match dumpAsmLoop instructions addr text with
    | some v => some v
    | none =>
      insertAtLowerBound instructions { address := addr, assembly := text, pcode := [] }

/-- The `for` loop of `Hutch_Instructions::dumpPcode` (hutch.cpp 298-311) over the records
from position `i` on.  The first component tells whether the loop executed `return`;
the second is the vector after the loop (a record of the address that lacks the
micro-operation gets it appended, and the loop goes on). -/
def dumpPcodeLoop : List Instruction → Nat → PcodeData → Bool × List Instruction
  | [], _, _ => (false, [])
  | r :: rs, address, pcode =>
    if r.address = address ∧ pcode ∈ r.pcode then (true, r :: rs)
    else if r.address = address then
      let res := dumpPcodeLoop rs address pcode
      (res.1, { r with pcode := r.pcode ++ [pcode] } :: res.2)
    else
      let res := dumpPcodeLoop rs address pcode
      (res.1, r :: res.2)

/-- The function `Hutch_Instructions::dumpPcode` (hutch.cpp 277-326). -/
def dumpPcode (instructions : List Instruction) (addr : Nat) (pcode : PcodeData) :
    Option (List Instruction) :=
  match instructions with
  | [] => some [{ address := addr, assembly := "", pcode := [pcode] }]
  | front :: rest =>
    if front.pcode.isEmpty then
      some ({ front with pcode := front.pcode ++ [pcode] } :: rest)
    else
      let res := dumpPcodeLoop (front :: rest) addr pcode
      if res.1 then some res.2
      else insertAtLowerBound res.2 { address := addr, assembly := "", pcode := [pcode] }

/-- One call received by the accumulating sink: `dumpAsm` (the spec's `onAssembly`) or
`dumpPcode` (the spec's `onMicroOp`). -/
inductive Emission where
  | asm (addr : Nat) (mnem body : String)
  | pcode (addr : Nat) (p : PcodeData)
deriving DecidableEq, Repr

/-- Apply one call to the store. -/
def Emission.apply (instructions : List Instruction) : Emission → Option (List Instruction)
  | .asm addr mnem body => dumpAsm instructions addr mnem body
  | .pcode addr p => dumpPcode instructions addr p

/-- Apply a sequence of calls, in order, starting from `instructions`. -/
def run : List Emission → List Instruction → Option (List Instruction)
  | [], instructions => some instructions
  | e :: es, instructions =>
    match e.apply instructions with
    | none => none
    | some v => run es v

/-- A store that some finite sequence of calls produces from the empty store. -/
def Reachable (instructions : List Instruction) : Prop :=
  ∃ es : List Emission, run es [] = some instructions

/-- Addresses strictly ascending along the vector. -/
def Ascending (instructions : List Instruction) : Prop :=
  instructions.Pairwise (fun r s => r.address < s.address)

/-- No record holds the same micro-operation twice. -/
def NoDupOps (instructions : List Instruction) : Prop :=
  ∀ r ∈ instructions, r.pcode.Nodup

/-- What the loop of `dumpPcode` does to the micro-operation list of a record of the
address: nothing when the micro-operation is present, `push_back` otherwise. -/
def addOp (acc : List PcodeData) (p : PcodeData) : List PcodeData :=
  if p ∈ acc then acc else acc ++ [p]

/-! ## The decode-iteration driver -/

/-- The enumeration `DisassemblyUnit` of `hutch.hpp`. -/
inductive DisassemblyUnit where
  | UNIT_BYTE
  | UNIT_INSN
deriving DecidableEq, Repr

/-- Modelled from the spec: the decoder (the Sleigh translator `trans`) is an external
library.  At an address it reports one instruction length (`instructionLength`, also the
value `printAssembly` returns), hands one assembly description `mnem`, `body` to the sink
(`printAssembly` calls `dumpAsm` once) and a sequence of micro-operations `ops`
(`oneInstruction` calls `dumpPcode` once per micro-operation, in order). -/
structure Decoder where
  instructionLength : Nat → Int
  mnem : Nat → String
  body : Nat → String
  ops : Nat → List PcodeData

/-- The sink `Hutch_Emit* emit` of the driver: either the printing `Hutch_Emit` (also used
when the caller passes no emitter) or a `Hutch_Instructions` store, which is what the
`dynamic_cast` in `disassemble` tells apart. -/
inductive Hutch_Emit where
  | emitdefault
  | store (instructions : List Instruction)
deriving DecidableEq, Repr

/-- Conversion of a signed counter to `uintb`, as C++ does before comparing an `int` with
a `uintb`. -/
def toUintb (i : Int) : Nat := (i % ((2 ^ 64 : Nat) : Int)).toNat

/-- Modelled from the spec: the class `Address` belongs to the decoder library.  Its
`operator+` advances the offset by a signed amount, here in 64-bit unsigned arithmetic;
its `operator<`, on two addresses of the default space, compares the offsets. -/
def addrPlus (addr : Nat) (off : Int) : Nat := toUintb ((addr : Int) + off)

/-- The two decoder calls of one loop iteration, `printAssembly (*e, addr)` followed by
`oneInstruction (*e, addr)`, seen from the sink.  `none` : a store call read outside the
vector. -/
def decodeOne (d : Decoder) (emit : Hutch_Emit) (addr : Nat) : Option Hutch_Emit :=
  match emit with
  | .emitdefault => some .emitdefault
  | .store instructions =>
    match dumpAsm instructions addr (d.mnem addr) (d.body addr) with
    | none => none
    | some v => (run ((d.ops addr).map (Emission.pcode addr)) v).map Hutch_Emit.store

/-- What a call of `disassemble` leaves behind: the returned counter `i`, the addresses
handed to the decoder by the second loop, in order, and the sink. -/
structure Disassembly where
  units : Int
  decoded : List Nat
  emit : Hutch_Emit
deriving DecidableEq, Repr

/-- How a run of `disassemble` ends in the model.  `intOverflow` : one of the `int`
counters of the function (`i`, `moveaddr`) would leave the range of `int`, for which C++
defines no behaviour. -/
inductive Outcome where
  | returned (r : Disassembly)
  | outOfBounds
  | outOfFuel
  | intOverflow
deriving DecidableEq, Repr

/-- Whether a value lies in the range of the 32-bit C++ `int`. -/
def fitsInt (i : Int) : Bool := decide (-(2 ^ 31 : Int) ≤ i ∧ i < 2 ^ 31)

/-- How the first loop of `disassemble` ends in the model: at an address, with `moveaddr`
leaving the range of `int`, or not within the fuel. -/
inductive SkipOutcome where
  | reached (addr : Nat)
  | intOverflow
  | outOfFuel
deriving DecidableEq, Repr

/-- The first `for` loop of `Hutch::disassemble` (hutch.cpp 137-140), which moves `addr`
forward when the unit is `UNIT_INSN`; `moveaddr` and `insnlen` are `int`, so the sum
`moveaddr += insnlen` has to stay in the range of `int`. -/
def skipLoop (d : Decoder) (offset lastaddr : Nat) : Nat → Int → Nat → SkipOutcome
  | 0, _, _ => .outOfFuel
  | fuel + 1, moveaddr, addr =>
    if toUintb moveaddr < offset ∧ addr < lastaddr then
      let insnlen := d.instructionLength addr
      if fitsInt (moveaddr + insnlen) then
        skipLoop d offset lastaddr fuel (moveaddr + insnlen) (addrPlus addr insnlen)
      else .intOverflow
    else .reached addr

/-- The second `for` loop of `Hutch::disassemble` (hutch.cpp 145-159); `i` and `len` are
`int`, so the sum `i += (unit == UNIT_BYTE) ? len : 1` has to stay in the range of
`int`. -/
def decodeLoop (d : Decoder) (unit : DisassemblyUnit) (amount lastaddr : Nat) :
    Nat → Int → Nat → List Nat → Hutch_Emit → Outcome
  | 0, _, _, _, _ => .outOfFuel
  | fuel + 1, i, addr, decoded, emit =>
    if toUintb i < amount ∧ addr < lastaddr then
      match decodeOne d emit addr with
      | none => .outOfBounds
      | some emit1 =>
        let len := d.instructionLength addr
        if fitsInt (i + (if unit = .UNIT_BYTE then len else 1)) then
          decodeLoop d unit amount lastaddr fuel
            (i + (if unit = .UNIT_BYTE then len else 1)) (addrPlus addr len)
            (decoded ++ [addr]) emit1
        else .intOverflow
    else .returned { units := i, decoded := decoded, emit := emit }

/-- The function `Hutch::disassemble` (hutch.cpp 123-161) on an image of `imagesize` bytes
loaded at `baseaddr`; each of its two loops may run `fuel` iterations. -/
def disassemble (d : Decoder) (baseaddr imagesize fuel : Nat) (unit : DisassemblyUnit)
    (offset amount : Nat) (emitter : Hutch_Emit) : Outcome :=
  let lastaddr := (baseaddr + imagesize) % 2 ^ 64
  let start :=
    if unit = .UNIT_INSN then skipLoop d offset lastaddr fuel 0 baseaddr
    else SkipOutcome.reached (addrPlus baseaddr (offset : Int))
  match start with
  | .outOfFuel => .outOfFuel
  | .intOverflow => .intOverflow
  | .reached addr => decodeLoop d unit amount lastaddr fuel 0 addr [] emitter

/-- Follows the spec's words: the address reached from `addr` after skipping `n`
instructions, each as long as the decoder reports. -/
def spec_skipInstructions (d : Decoder) : Nat → Nat → Nat
  | 0, addr => addr
  | n + 1, addr => spec_skipInstructions d n (addrPlus addr (d.instructionLength addr))

/-- Follows the spec's words: a sequence with repeated elements removed, in order of first
occurrence. -/
def spec_firstOccurrences : List PcodeData → List PcodeData
  | [] => []
  | p :: ps => p :: (spec_firstOccurrences ps).filter (fun q => q ≠ p)

/-- A decoder with the same length, text and micro-operations at every address. -/
def fixedDecoder (len : Int) (mnem : String) (ops : List PcodeData) : Decoder :=
  { instructionLength := fun _ => len, mnem := fun _ => mnem, body := fun _ => "", ops := fun _ => ops }

/-- A sample micro-operation. -/
def opA : PcodeData := { opc := 1, outvar := none, invar := [] }

/-- A second sample micro-operation, different from `opA`. -/
def opB : PcodeData := { opc := 2, outvar := none, invar := [] }

/-- The value of `start`, the address at which the second loop of `disassemble` begins. -/
def startAddr (d : Decoder) (baseaddr imagesize fuel : Nat) (unit : DisassemblyUnit)
    (offset : Nat) : SkipOutcome :=
  if unit = .UNIT_INSN then skipLoop d offset ((baseaddr + imagesize) % 2 ^ 64) fuel 0 baseaddr
  else .reached (addrPlus baseaddr (offset : Int))

/-- The sum of the lengths the decoder reports at the listed addresses. -/
def lengthSum (d : Decoder) (addrs : List Nat) : Int :=
  (addrs.map d.instructionLength).sum

/-! ## The single-step driver -/

/-- The two function-local `static uintb` variables of `Hutch::disassemble_iter`
(hutch.cpp 165-166).  They belong to the function, not to a `Hutch` object: every call, of
whatever session, reads and writes the same pair. -/
structure IterStatics where
  bufcheck : Nat
  ninsnbytes : Nat
deriving DecidableEq, Repr

/-- What one call of `disassemble_iter` leaves behind: the returned `uint`, the static
variables and the sink. -/
structure IterResult where
  ret : Nat
  statics : IterStatics
  emit : Hutch_Emit
deriving DecidableEq, Repr

/-- Conversion of an `int` to the `uint` that `disassemble_iter` returns. -/
def toUint (i : Int) : Nat := (i % ((2 ^ 32 : Nat) : Int)).toNat

/-- The function `Hutch::disassemble_iter` (hutch.cpp 163-209) of a session with decoder
`d` and an image of `imagesize` bytes at `baseaddr`, called with the static variables in
state `s`.  `none` : a store call read outside the vector. -/
def disassemble_iter (d : Decoder) (baseaddr imagesize : Nat) (s : IterStatics)
    (offset bufsize : Nat) (emitter : Hutch_Emit) : Option IterResult :=
  let ninsnbytes := if s.bufcheck = bufsize then s.ninsnbytes else 0
  let bufcheck :=
    if s.bufcheck = 0 then bufsize else if s.bufcheck = bufsize then s.bufcheck else bufsize
  if ninsnbytes > bufsize then
    some { ret := 0, statics := { bufcheck := bufcheck, ninsnbytes := ninsnbytes },
           emit := emitter }
  else
    let lastaddr := (baseaddr + imagesize) % 2 ^ 64
    let addr := addrPlus baseaddr (offset : Int)
    if lastaddr ≤ addr then
      some { ret := 0, statics := { bufcheck := bufcheck, ninsnbytes := ninsnbytes },
             emit := emitter }
    else
      match decodeOne d emitter addr with
      | none => none
      | some emit1 =>
        let len := d.instructionLength addr
        let ninsnbytes1 := toUintb ((ninsnbytes : Int) + len)
        if ninsnbytes1 > bufsize then
          some { ret := 0, statics := { bufcheck := bufcheck, ninsnbytes := ninsnbytes1 },
                 emit := emit1 }
        else
          some { ret := toUint len,
                 statics := { bufcheck := bufcheck, ninsnbytes := ninsnbytes1 },
                 emit := emit1 }

/-- A sequence of `disassemble_iter` calls of one session, all with the budget `bufsize`
and the same sink, at the listed offsets: the values returned, in order, with the static
variables and the sink after the last call. -/
def iterCalls (d : Decoder) (baseaddr imagesize bufsize : Nat) :
    IterStatics → Hutch_Emit → List Nat → Option (List Nat × IterStatics × Hutch_Emit)
  | s, emit, [] => some ([], s, emit)
  | s, emit, offset :: offsets =>
    match disassemble_iter d baseaddr imagesize s offset bufsize emit with
    | none => none
    | some r =>
      match iterCalls d baseaddr imagesize bufsize r.statics r.emit offsets with
      | none => none
      | some (rets, s1, emit1) => some (r.ret :: rets, s1, emit1)

/-- The value of `ninsnbytes` after the first statement of `disassemble_iter`
(hutch.cpp 167-168): the count carried over when the budget is that of the previous call,
0 otherwise. -/
def entryCount (s : IterStatics) (bufsize : Nat) : Nat :=
  if s.bufcheck = bufsize then s.ninsnbytes else 0

/-! ## Positional read and the image window -/

/-- How a positional read of the store can end.  `indexOutOfRange` is the error the spec
names; `undefined` is a read of `instructions[i]` outside the vector, for which C++
defines no behaviour. -/
inductive ReadOutcome where
  | record (r : Instruction)
  | indexOutOfRange
  | undefined
deriving DecidableEq, Repr

/-- The function `Hutch_Instructions::operator()` (hutch.cpp 363-366): it returns
`instructions[i]`, with no test of `i`. -/
def operatorCall (instructions : List Instruction) (i : Nat) : ReadOutcome :=
  match instructions[i]? with
  | some r => .record r
  | none => .undefined

/-- The class `DefaultLoadImage` of `hutch.hpp`: the window starts at `baseaddr`, `buf`
holds the bytes the pointer `buf` may be read at, `bufsize` is the size the constructor
was given. -/
structure DefaultLoadImage where
  baseaddr : Nat
  buf : List Nat
  bufsize : Nat
deriving DecidableEq, Repr

/-- The cast `(int4)diff` of a `uintb`. -/
def toInt4 (n : Nat) : Int :=
  if n % 2 ^ 32 < 2 ^ 31 then ((n % 2 ^ 32 : Nat) : Int) else ((n % 2 ^ 32 : Nat) : Int) - 2 ^ 32

/-- One iteration of the loop of `DefaultLoadImage::loadFill` (hutch.cpp 81-89): the byte
written to `ptr[i]`.  All arithmetic is that of `uintb`; `none` : the read
`buf[(int4)diff]` is outside `buf`. -/
def loadFillByte (img : DefaultLoadImage) (start i : Nat) : Option Nat :=
  let max := (img.baseaddr + (img.bufsize + 2 ^ 64 - 1) % 2 ^ 64) % 2 ^ 64
  let curoff := (start + i) % 2 ^ 64
  if curoff < img.baseaddr ∨ curoff > max then some 0
  else
    let diff := (curoff + 2 ^ 64 - img.baseaddr) % 2 ^ 64
    if 0 ≤ toInt4 diff then img.buf[(toInt4 diff).toNat]? else none

/-- The loop of `loadFill` from position `i` on, `n` positions being left. -/
def loadFillLoop (img : DefaultLoadImage) (start : Nat) : Nat → Nat → Option (List Nat)
  | 0, _ => some []
  | n + 1, i =>
    match loadFillByte img start i with
    | none => none
    | some b => (loadFillLoop img start n (i + 1)).map (fun bs => b :: bs)

/-- The function `DefaultLoadImage::loadFill` (hutch.cpp 75-91): the bytes written to
`ptr[0]`, ..., `ptr[size - 1]`, or `none` when a read falls outside `buf`. -/
def loadFill (img : DefaultLoadImage) (size : Int) (start : Nat) : Option (List Nat) :=
  loadFillLoop img start size.toNat 0

/-! ## Basic facts about the store operations -/

theorem insertAtLowerBound_nil (insn : Instruction) : insertAtLowerBound [] insn = none := rfl

theorem insertAtLowerBound_cons (r : Instruction) (rs : List Instruction) (insn : Instruction) :
    insertAtLowerBound (r :: rs) insn =
      if r.address < insn.address then (insertAtLowerBound rs insn).map (fun v => r :: v)
      else if r.address ≠ insn.address then some (insn :: r :: rs)
      else some (r :: rs) := by
  unfold insertAtLowerBound
  by_cases h : r.address < insn.address
  · simp only [lower_bound, h, if_true, List.getElem?_cons_succ]
    cases hrs : rs[lower_bound rs insn.address]? with
    | none => simp
    | some x =>
      by_cases hx : x.address = insn.address <;> simp [hx, insert]
  · simp [lower_bound, h, insert]

/-- The read `instructions[index]` falls outside the vector exactly when every stored
address is below the new one (in particular when the new address is above all of them). -/
theorem insertAtLowerBound_eq_none_iff (v : List Instruction) (insn : Instruction) :
    insertAtLowerBound v insn = none ↔ ∀ r ∈ v, r.address < insn.address := by
  induction v with
  | nil => simp [insertAtLowerBound_nil]
  | cons r rs ih =>
    rw [insertAtLowerBound_cons]
    by_cases h1 : r.address < insn.address
    · simp [h1, ih]
    · by_cases h2 : r.address = insn.address <;> simp [h1, h2]

/-- Whatever `insertAtLowerBound` returns holds the old records and possibly `insn`. -/
theorem mem_of_insertAtLowerBound {v w : List Instruction} {insn : Instruction}
    (h : insertAtLowerBound v insn = some w) {x : Instruction} (hx : x ∈ w) :
    x ∈ v ∨ x = insn := by
  induction v generalizing w with
  | nil => simp [insertAtLowerBound_nil] at h
  | cons r rs ih =>
    rw [insertAtLowerBound_cons] at h
    split_ifs at h with h1 h2
    · cases hrs : insertAtLowerBound rs insn with
      | none => simp [hrs] at h
      | some u =>
        simp only [hrs, Option.map_some', Option.some.injEq] at h
        subst h
        rcases List.mem_cons.1 hx with rfl | hx
        · exact Or.inl (List.mem_cons_self _ _)
        · rcases ih hrs hx with h3 | h3
          · exact Or.inl (List.mem_cons_of_mem _ h3)
          · exact Or.inr h3
    · simp only [Option.some.injEq] at h
      subst h
      rcases List.mem_cons.1 hx with rfl | hx
      · exact Or.inr rfl
      · exact Or.inl hx
    · simp only [Option.some.injEq] at h
      subst h
      exact Or.inl hx

/-- Inserting at the `lower_bound` position keeps the addresses strictly ascending. -/
theorem ascending_insertAtLowerBound {v w : List Instruction} {insn : Instruction}
    (hv : Ascending v) (h : insertAtLowerBound v insn = some w) : Ascending w := by
  induction v generalizing w with
  | nil => simp [insertAtLowerBound_nil] at h
  | cons r rs ih =>
    have hv0 := hv
    unfold Ascending at hv
    rw [List.pairwise_cons] at hv
    rw [insertAtLowerBound_cons] at h
    split_ifs at h with h1 h2
    · cases hrs : insertAtLowerBound rs insn with
      | none => simp [hrs] at h
      | some u =>
        simp only [hrs, Option.map_some', Option.some.injEq] at h
        subst h
        unfold Ascending
        rw [List.pairwise_cons]
        refine ⟨?_, ih hv.2 hrs⟩
        intro x hx
        rcases mem_of_insertAtLowerBound hrs hx with h3 | h3
        · exact hv.1 x h3
        · rw [h3]; exact h1
    · simp only [Option.some.injEq] at h
      subst h
      unfold Ascending
      rw [List.pairwise_cons]
      refine ⟨?_, hv0⟩
      have h3 : insn.address < r.address := by omega
      intro x hx
      rcases List.mem_cons.1 hx with rfl | hx
      · exact h3
      · exact lt_trans h3 (hv.1 x hx)
    · simp only [Option.some.injEq] at h
      subst h
      exact hv0

theorem ascending_iff_map (v : List Instruction) :
    Ascending v ↔ (v.map (fun r => r.address)).Pairwise (fun a b => a < b) := by
  unfold Ascending
  rw [List.pairwise_map]

theorem dumpAsmLoop_map_address {v w : List Instruction} {a : Nat} {text : String}
    (h : dumpAsmLoop v a text = some w) :
    w.map (fun r => r.address) = v.map (fun r => r.address) := by
  induction v generalizing w with
  | nil => simp [dumpAsmLoop] at h
  | cons r rs ih =>
    unfold dumpAsmLoop at h
    split_ifs at h with h1 h2
    · simp only [Option.some.injEq] at h
      subst h; rfl
    · simp only [Option.some.injEq] at h
      subst h; simp
    · cases hrs : dumpAsmLoop rs a text with
      | none => simp [hrs] at h
      | some u =>
        simp only [hrs, Option.map_some', Option.some.injEq] at h
        subst h
        simp [ih hrs]

theorem dumpPcodeLoop_map_address (v : List Instruction) (a : Nat) (p : PcodeData) :
    (dumpPcodeLoop v a p).2.map (fun r => r.address) = v.map (fun r => r.address) := by
  induction v with
  | nil => simp [dumpPcodeLoop]
  | cons r rs ih =>
    unfold dumpPcodeLoop
    split_ifs with h1 h2
    · rfl
    · simp [ih]
    · simp [ih]

theorem ascending_dumpAsm {v w : List Instruction} {a : Nat} {mnem body : String}
    (hv : Ascending v) (h : dumpAsm v a mnem body = some w) : Ascending w := by
  unfold dumpAsm at h
  simp only at h
  split_ifs at h with h1
  · simp only [Option.some.injEq] at h
    subst h
    simp [Ascending]
  · cases hl : dumpAsmLoop v a (mnem ++ " " ++ body) with
    | some u =>
      simp only [hl, Option.some.injEq] at h
      subst h
      rw [ascending_iff_map, dumpAsmLoop_map_address hl, ← ascending_iff_map]
      exact hv
    | none =>
      simp only [hl] at h
      exact ascending_insertAtLowerBound hv h

theorem ascending_dumpPcode {v w : List Instruction} {a : Nat} {p : PcodeData}
    (hv : Ascending v) (h : dumpPcode v a p = some w) : Ascending w := by
  unfold dumpPcode at h
  cases v with
  | nil =>
    simp only [Option.some.injEq] at h
    subst h
    simp [Ascending]
  | cons front rest =>
    simp only at h
    have hloop : Ascending (dumpPcodeLoop (front :: rest) a p).2 := by
      rw [ascending_iff_map, dumpPcodeLoop_map_address, ← ascending_iff_map]
      exact hv
    split_ifs at h with h1 h2
    · simp only [Option.some.injEq] at h
      subst h
      rw [ascending_iff_map] at hv ⊢
      simpa using hv
    · simp only [Option.some.injEq] at h
      subst h
      exact hloop
    · exact ascending_insertAtLowerBound hloop h

theorem ascending_apply {v w : List Instruction} {e : Emission}
    (hv : Ascending v) (h : e.apply v = some w) : Ascending w := by
  cases e with
  | asm a mnem body => exact ascending_dumpAsm hv h
  | pcode a p => exact ascending_dumpPcode hv h

theorem ascending_run {es : List Emission} {v w : List Instruction}
    (hv : Ascending v) (h : run es v = some w) : Ascending w := by
  induction es generalizing v with
  | nil =>
    simp only [run, Option.some.injEq] at h
    subst h; exact hv
  | cons e es ih =>
    unfold run at h
    cases he : e.apply v with
    | none => simp [he] at h
    | some u =>
      simp only [he] at h
      exact ih (ascending_apply hv he) h

theorem ascending_of_reachable {v : List Instruction} (h : Reachable v) : Ascending v := by
  obtain ⟨es, hes⟩ := h
  exact ascending_run (by simp [Ascending]) hes

/-! ### Micro-operation lists stay duplicate-free -/

theorem noDupOps_insertAtLowerBound {v w : List Instruction} {insn : Instruction}
    (hv : NoDupOps v) (hi : insn.pcode.Nodup) (h : insertAtLowerBound v insn = some w) :
    NoDupOps w := by
  intro x hx
  rcases mem_of_insertAtLowerBound h hx with h1 | h1
  · exact hv x h1
  · rw [h1]; exact hi

theorem noDupOps_dumpAsmLoop {v w : List Instruction} {a : Nat} {text : String}
    (hv : NoDupOps v) (h : dumpAsmLoop v a text = some w) : NoDupOps w := by
  induction v generalizing w with
  | nil => simp [dumpAsmLoop] at h
  | cons r rs ih =>
    have hr : r.pcode.Nodup := hv r (List.mem_cons_self _ _)
    have hrs : NoDupOps rs := fun x hx => hv x (List.mem_cons_of_mem _ hx)
    unfold dumpAsmLoop at h
    split_ifs at h with h1 h2
    · simp only [Option.some.injEq] at h
      subst h; exact hv
    · simp only [Option.some.injEq] at h
      subst h
      intro x hx
      rcases List.mem_cons.1 hx with rfl | hx
      · exact hr
      · exact hrs x hx
    · cases hl : dumpAsmLoop rs a text with
      | none => simp [hl] at h
      | some u =>
        simp only [hl, Option.map_some', Option.some.injEq] at h
        subst h
        intro x hx
        rcases List.mem_cons.1 hx with rfl | hx
        · exact hr
        · exact ih hrs hl x hx

theorem noDupOps_dumpPcodeLoop {v : List Instruction} (a : Nat) (p : PcodeData)
    (hv : NoDupOps v) : NoDupOps (dumpPcodeLoop v a p).2 := by
  induction v with
  | nil => intro x hx; simp [dumpPcodeLoop] at hx
  | cons r rs ih =>
    have hr : r.pcode.Nodup := hv r (List.mem_cons_self _ _)
    have hrs : NoDupOps rs := fun x hx => hv x (List.mem_cons_of_mem _ hx)
    unfold dumpPcodeLoop
    split_ifs with h1 h2
    · exact hv
    · intro x hx
      rcases List.mem_cons.1 hx with rfl | hx
      · have hp : p ∉ r.pcode := fun hp => h1 ⟨h2, hp⟩
        simp only
        rw [List.nodup_append]
        refine ⟨hr, List.nodup_singleton p, ?_⟩
        intro y hy hy2
        rw [List.mem_singleton] at hy2
        subst hy2
        exact hp hy
      · exact ih hrs x hx
    · intro x hx
      rcases List.mem_cons.1 hx with rfl | hx
      · exact hr
      · exact ih hrs x hx

theorem noDupOps_dumpAsm {v w : List Instruction} {a : Nat} {mnem body : String}
    (hv : NoDupOps v) (h : dumpAsm v a mnem body = some w) : NoDupOps w := by
  unfold dumpAsm at h
  simp only at h
  split_ifs at h with h1
  · simp only [Option.some.injEq] at h
    subst h
    intro x hx
    rw [List.mem_singleton] at hx
    subst hx
    exact List.nodup_nil
  · cases hl : dumpAsmLoop v a (mnem ++ " " ++ body) with
    | some u =>
      simp only [hl, Option.some.injEq] at h
      subst h
      exact noDupOps_dumpAsmLoop hv hl
    | none =>
      simp only [hl] at h
      exact noDupOps_insertAtLowerBound hv List.nodup_nil h

theorem noDupOps_dumpPcode {v w : List Instruction} {a : Nat} {p : PcodeData}
    (hv : NoDupOps v) (h : dumpPcode v a p = some w) : NoDupOps w := by
  unfold dumpPcode at h
  cases v with
  | nil =>
    simp only [Option.some.injEq] at h
    subst h
    intro x hx
    rw [List.mem_singleton] at hx
    subst hx
    exact List.nodup_singleton p
  | cons front rest =>
    simp only at h
    split_ifs at h with h1 h2
    · simp only [Option.some.injEq] at h
      subst h
      intro x hx
      rcases List.mem_cons.1 hx with rfl | hx
      · have h3 : front.pcode = [] := by simpa using h1
        simp only [h3, List.nil_append]
        exact List.nodup_singleton p
      · exact hv x (List.mem_cons_of_mem _ hx)
    · simp only [Option.some.injEq] at h
      subst h
      exact noDupOps_dumpPcodeLoop a p hv
    · exact noDupOps_insertAtLowerBound (noDupOps_dumpPcodeLoop a p hv)
        (List.nodup_singleton p) h

theorem noDupOps_run {es : List Emission} {v w : List Instruction}
    (hv : NoDupOps v) (h : run es v = some w) : NoDupOps w := by
  induction es generalizing v with
  | nil =>
    simp only [run, Option.some.injEq] at h
    subst h; exact hv
  | cons e es ih =>
    unfold run at h
    cases he : e.apply v with
    | none => simp [he] at h
    | some u =>
      simp only [he] at h
      refine ih ?_ h
      cases e with
      | asm a mnem body => exact noDupOps_dumpAsm hv he
      | pcode a p => exact noDupOps_dumpPcode hv he

/-! ### First write wins for the assembly text -/

theorem dumpAsmLoop_none_of_absent {v : List Instruction} {a : Nat} (text : String)
    (h : ∀ x ∈ v, x.address ≠ a) : dumpAsmLoop v a text = none := by
  induction v with
  | nil => rfl
  | cons r rs ih =>
    have hr : r.address ≠ a := h r (List.mem_cons_self _ _)
    unfold dumpAsmLoop
    simp [hr, ih (fun x hx => h x (List.mem_cons_of_mem _ hx))]

theorem dumpAsmLoop_unchanged {v w : List Instruction} {a : Nat} {text : String}
    {r : Instruction} (hv : Ascending v) (hr : r ∈ v) (ha : r.address = a)
    (ht : r.assembly ≠ "") (h : dumpAsmLoop v a text = some w) : w = v := by
  induction v generalizing w with
  | nil => simp [dumpAsmLoop] at h
  | cons x xs ih =>
    unfold Ascending at hv
    rw [List.pairwise_cons] at hv
    unfold dumpAsmLoop at h
    split_ifs at h with h1 h2
    · simp only [Option.some.injEq] at h
      exact h.symm
    · exfalso
      rcases List.mem_cons.1 hr with h3 | h3
      · rw [h3] at ht; exact ht h2.2
      · have := hv.1 r h3
        omega
    · cases hl : dumpAsmLoop xs a text with
      | none => simp [hl] at h
      | some u =>
        simp only [hl, Option.map_some', Option.some.injEq] at h
        subst h
        rcases List.mem_cons.1 hr with h3 | h3
        · exfalso
          have hnone : dumpAsmLoop xs a text = none := by
            apply dumpAsmLoop_none_of_absent
            intro y hy
            have := hv.1 y hy
            rw [h3] at ha
            omega
          rw [hnone] at hl
          cases hl
        · rw [ih hv.2 h3 hl]

theorem insertAtLowerBound_of_mem {v : List Instruction} {insn r : Instruction}
    (hv : Ascending v) (hr : r ∈ v) (ha : r.address = insn.address) :
    insertAtLowerBound v insn = some v := by
  induction v with
  | nil => cases hr
  | cons x xs ih =>
    unfold Ascending at hv
    rw [List.pairwise_cons] at hv
    rw [insertAtLowerBound_cons]
    split_ifs with h1 h2
    · rcases List.mem_cons.1 hr with h3 | h3
      · rw [h3] at ha; omega
      · rw [ih hv.2 h3]; rfl
    · exfalso
      rcases List.mem_cons.1 hr with h3 | h3
      · rw [h3] at ha; omega
      · have := hv.1 r h3
        omega
    · rfl

/-- A record of address `a` with non-empty text makes `dumpAsm` at `a` return the vector as
it is. -/
theorem dumpAsm_unchanged {v : List Instruction} {a : Nat} {r : Instruction}
    (hv : Ascending v) (hr : r ∈ v) (ha : r.address = a) (ht : r.assembly ≠ "")
    (mnem body : String) : dumpAsm v a mnem body = some v := by
  unfold dumpAsm
  simp only
  have hne : v.isEmpty = false := by
    cases v with
    | nil => cases hr
    | cons x xs => rfl
  simp only [hne, Bool.false_eq_true, if_false]
  cases hl : dumpAsmLoop v a (mnem ++ " " ++ body) with
  | some u => simp only; rw [dumpAsmLoop_unchanged hv hr ha ht hl]
  | none => simp only; exact insertAtLowerBound_of_mem hv hr ha

theorem ascending_address_unique {v : List Instruction} (hv : Ascending v)
    {x y : Instruction} (hx : x ∈ v) (hy : y ∈ v) (h : x.address = y.address) : x = y := by
  induction v with
  | nil => cases hx
  | cons z zs ih =>
    unfold Ascending at hv
    rw [List.pairwise_cons] at hv
    rcases List.mem_cons.1 hx with h1 | h1 <;> rcases List.mem_cons.1 hy with h2 | h2
    · rw [h1, h2]
    · have := hv.1 y h2
      rw [h1] at h; omega
    · have := hv.1 x h1
      rw [h2] at h; omega
    · exact ih hv.2 h1 h2

theorem dumpAsmLoop_text {v w : List Instruction} {a : Nat} {text : String}
    (h0 : ∀ x ∈ v, x.address = a → x.assembly = "")
    (h : dumpAsmLoop v a text = some w) :
    ∀ r ∈ w, r.address = a → r.assembly = text ∨ r.assembly = "" := by
  induction v generalizing w with
  | nil => simp [dumpAsmLoop] at h
  | cons x xs ih =>
    unfold dumpAsmLoop at h
    split_ifs at h with h1 h2
    · simp only [Option.some.injEq] at h
      subst h
      intro r hr hra
      exact Or.inr (h0 r hr hra)
    · simp only [Option.some.injEq] at h
      subst h
      intro r hr hra
      rcases List.mem_cons.1 hr with h3 | h3
      · left; rw [h3]
      · exact Or.inr (h0 r (List.mem_cons_of_mem _ h3) hra)
    · cases hl : dumpAsmLoop xs a text with
      | none => simp [hl] at h
      | some u =>
        simp only [hl, Option.map_some', Option.some.injEq] at h
        subst h
        intro r hr hra
        rcases List.mem_cons.1 hr with h3 | h3
        · rw [h3]; exact Or.inr (h0 x (List.mem_cons_self _ _) (h3 ▸ hra))
        · exact ih (fun y hy => h0 y (List.mem_cons_of_mem _ hy)) hl r h3 hra

/-- When no record of address `a` has text yet, a successful `dumpAsm` at `a` leaves the
supplied text on every record of `a` that has text. -/
theorem dumpAsm_first_text {v0 v : List Instruction} {a : Nat} {mnem body : String}
    (h0 : ∀ x ∈ v0, x.address = a → x.assembly = "")
    (h : dumpAsm v0 a mnem body = some v) {r : Instruction} (hr : r ∈ v)
    (ha : r.address = a) (ht : r.assembly ≠ "") : r.assembly = mnem ++ " " ++ body := by
  unfold dumpAsm at h
  simp only at h
  split_ifs at h with h1
  · simp only [Option.some.injEq] at h
    subst h
    rw [List.mem_singleton] at hr
    rw [hr]
  · cases hl : dumpAsmLoop v0 a (mnem ++ " " ++ body) with
    | some u =>
      simp only [hl, Option.some.injEq] at h
      subst h
      rcases dumpAsmLoop_text h0 hl r hr ha with h3 | h3
      · exact h3
      · exact absurd h3 ht
    | none =>
      simp only [hl] at h
      rcases mem_of_insertAtLowerBound h hr with h3 | h3
      · exact absurd (h0 r h3 ha) ht
      · rw [h3]

/-! ### Repeated micro-operations at one address -/

theorem addOp_ne_nil {acc : List PcodeData} (p : PcodeData) (h : acc ≠ []) :
    addOp acc p ≠ [] := by
  unfold addOp
  split_ifs
  · exact h
  · simp

theorem dumpPcode_single {a : Nat} {text : String} {acc : List PcodeData} (p : PcodeData)
    (h : acc ≠ []) :
    dumpPcode [{ address := a, assembly := text, pcode := acc }] a p =
      some [{ address := a, assembly := text, pcode := addOp acc p }] := by
  have hne : acc.isEmpty = false := by
    cases acc with
    | nil => exact absurd rfl h
    | cons x xs => rfl
  unfold dumpPcode
  simp only [hne, Bool.false_eq_true, if_false]
  by_cases hp : p ∈ acc
  · simp [dumpPcodeLoop, hp, addOp]
  · simp [dumpPcodeLoop, hp, addOp, insertAtLowerBound_cons]

theorem run_pcode_single {a : Nat} {text : String} (ps : List PcodeData)
    {acc : List PcodeData} (h : acc ≠ []) :
    run (ps.map (Emission.pcode a)) [{ address := a, assembly := text, pcode := acc }] =
      some [{ address := a, assembly := text, pcode := ps.foldl addOp acc }] := by
  induction ps generalizing acc with
  | nil => rfl
  | cons p ps ih =>
    simp only [List.map_cons, run, Emission.apply, dumpPcode_single p h, List.foldl_cons]
    exact ih (addOp_ne_nil p h)

theorem foldl_addOp (ps acc : List PcodeData) :
    ps.foldl addOp acc = acc ++ (spec_firstOccurrences ps).filter (fun q => q ∉ acc) := by
  induction ps generalizing acc with
  | nil => simp [spec_firstOccurrences]
  | cons p ps ih =>
    rw [List.foldl_cons, ih]
    unfold addOp
    by_cases hp : p ∈ acc
    · simp only [hp, if_true, spec_firstOccurrences]
      congr 1
      rw [List.filter_cons]
      simp only [hp, not_true_eq_false, decide_False, Bool.false_eq_true, if_false]
      rw [List.filter_filter]
      apply List.filter_congr
      intro q _
      by_cases hq : q ∈ acc
      · simp [hq]
      · have : q ≠ p := fun e => hq (e ▸ hp)
        simp [hq, this]
    · simp only [hp, if_false, spec_firstOccurrences]
      rw [List.append_assoc]
      congr 1
      rw [List.filter_cons]
      simp only [hp, not_false_eq_true, decide_True, if_true, List.singleton_append]
      congr 1
      rw [List.filter_filter]
      apply List.filter_congr
      intro q _
      by_cases hq : q ∈ acc <;> by_cases hqp : q = p <;> simp [hq, hqp]

/-! ## Basic facts about the driver -/

theorem toUintb_cast (i : Int) (h0 : 0 ≤ i) (h1 : i < 2 ^ 64) : ((toUintb i : Nat) : Int) = i := by
  unfold toUintb
  have h2 : i % ((2 ^ 64 : Nat) : Int) = i := by
    apply Int.emod_eq_of_lt h0
    push_cast
    exact h1
  rw [h2, Int.toNat_of_nonneg h0]

theorem toUintb_natCast (n : Nat) (h : n < 2 ^ 64) : toUintb (n : Int) = n := by
  have h1 := toUintb_cast (n : Int) (Int.natCast_nonneg n) (by exact_mod_cast h)
  exact_mod_cast h1

theorem addrPlus_cast (addr : Nat) (off : Int) (h0 : 0 ≤ (addr : Int) + off)
    (h1 : (addr : Int) + off < 2 ^ 64) : ((addrPlus addr off : Nat) : Int) = addr + off :=
  toUintb_cast _ h0 h1

theorem lengthSum_nil (d : Decoder) : lengthSum d [] = 0 := rfl

theorem lengthSum_cons (d : Decoder) (a : Nat) (as : List Nat) :
    lengthSum d (a :: as) = d.instructionLength a + lengthSum d as := by
  simp [lengthSum]

theorem lengthSum_append (d : Decoder) (as bs : List Nat) :
    lengthSum d (as ++ bs) = lengthSum d as + lengthSum d bs := by
  simp [lengthSum]

theorem lengthSum_nonneg_of (d : Decoder) (as : List Nat)
    (hpos : ∀ a ∈ as, 0 < d.instructionLength a) : 0 ≤ lengthSum d as := by
  induction as with
  | nil => simp [lengthSum]
  | cons a as ih =>
    rw [lengthSum_cons]
    have := hpos a (List.mem_cons_self _ _)
    have := ih (fun b hb => hpos b (List.mem_cons_of_mem _ hb))
    omega

theorem fitsInt_of (i : Int) (h0 : -(2 ^ 31 : Int) ≤ i) (h1 : i < 2 ^ 31) :
    fitsInt i = true := by
  unfold fitsInt
  exact decide_eq_true ⟨h0, h1⟩

theorem fitsInt_bounds (i : Int) (h : fitsInt i = true) : -(2 ^ 31 : Int) ≤ i ∧ i < 2 ^ 31 := by
  unfold fitsInt at h
  exact of_decide_eq_true h

theorem decodeLoop_succ (d : Decoder) (unit : DisassemblyUnit) (amount lastaddr fuel : Nat)
    (i : Int) (addr : Nat) (decoded : List Nat) (emit : Hutch_Emit) :
    decodeLoop d unit amount lastaddr (fuel + 1) i addr decoded emit =
      if toUintb i < amount ∧ addr < lastaddr then
        match decodeOne d emit addr with
        | none => Outcome.outOfBounds
        | some emit1 =>
          if fitsInt
              (i + (if unit = DisassemblyUnit.UNIT_BYTE then d.instructionLength addr else 1))
          then
            decodeLoop d unit amount lastaddr fuel
              (i + (if unit = DisassemblyUnit.UNIT_BYTE then d.instructionLength addr else 1))
              (addrPlus addr (d.instructionLength addr)) (decoded ++ [addr]) emit1
          else Outcome.intOverflow
      else Outcome.returned { units := i, decoded := decoded, emit := emit } := rfl

theorem skipLoop_succ (d : Decoder) (offset lastaddr fuel : Nat) (moveaddr : Int)
    (addr : Nat) :
    skipLoop d offset lastaddr (fuel + 1) moveaddr addr =
      if toUintb moveaddr < offset ∧ addr < lastaddr then
        if fitsInt (moveaddr + d.instructionLength addr) then
          skipLoop d offset lastaddr fuel (moveaddr + d.instructionLength addr)
            (addrPlus addr (d.instructionLength addr))
        else SkipOutcome.intOverflow
      else SkipOutcome.reached addr := rfl

theorem disassemble_eq (d : Decoder) (baseaddr imagesize fuel : Nat) (unit : DisassemblyUnit)
    (offset amount : Nat) (emitter : Hutch_Emit) :
    disassemble d baseaddr imagesize fuel unit offset amount emitter =
      match startAddr d baseaddr imagesize fuel unit offset with
      | SkipOutcome.outOfFuel => Outcome.outOfFuel
      | SkipOutcome.intOverflow => Outcome.intOverflow
      | SkipOutcome.reached addr =>
        decodeLoop d unit amount ((baseaddr + imagesize) % 2 ^ 64) fuel 0 addr [] emitter := rfl

theorem startAddr_byte (d : Decoder) (baseaddr imagesize fuel offset : Nat) :
    startAddr d baseaddr imagesize fuel DisassemblyUnit.UNIT_BYTE offset =
      SkipOutcome.reached (addrPlus baseaddr (offset : Int)) := by
  simp [startAddr]

theorem decodeOne_emitdefault (d : Decoder) (addr : Nat) :
    decodeOne d Hutch_Emit.emitdefault addr = some Hutch_Emit.emitdefault := rfl

/-- The second loop, for a decoder with positive lengths and a counter that stays in the
range of `int` (the image lies below address `2 ^ 31`, or `amount` plus an instruction
length does): it ends within `lastaddr - addr + 1` iterations, and what it returns counts
the units consumed. -/
theorem decodeLoop_units (d : Decoder) (hpos : ∀ a, 0 < d.instructionLength a)
    (unit : DisassemblyUnit) (amount lastaddr : Nat) (hlast : lastaddr < 2 ^ 64)
    (hfit : ∀ a, a < lastaddr → (a : Int) + d.instructionLength a < 2 ^ 64)
    (hcnt : (∀ a, a < lastaddr → (a : Int) + d.instructionLength a < 2 ^ 31) ∨
      (∀ a, a < lastaddr → (amount : Int) + d.instructionLength a < 2 ^ 31)) (fuel : Nat) :
    ∀ (i : Int) (addr : Nat) (decoded : List Nat) (emit : Hutch_Emit),
      lastaddr - addr < fuel → 0 ≤ i → i ≤ addr →
      (unit = DisassemblyUnit.UNIT_INSN → i ≤ amount) →
      decodeLoop d unit amount lastaddr fuel i addr decoded emit ≠ Outcome.outOfFuel ∧
      decodeLoop d unit amount lastaddr fuel i addr decoded emit ≠ Outcome.intOverflow ∧
      (emit = Hutch_Emit.emitdefault →
        ∃ r, decodeLoop d unit amount lastaddr fuel i addr decoded emit = Outcome.returned r) ∧
      ∀ r, decodeLoop d unit amount lastaddr fuel i addr decoded emit = Outcome.returned r →
        ∃ tail, r.decoded = decoded ++ tail ∧
          (unit = DisassemblyUnit.UNIT_INSN → r.units = i + tail.length ∧ r.units ≤ amount) ∧
          (unit = DisassemblyUnit.UNIT_BYTE → r.units = i + lengthSum d tail ∧
            ∀ a, tail.getLast? = some a → r.units - d.instructionLength a < amount) ∧
          (r.units < amount → (tail = [] → lastaddr ≤ addr) ∧
            ∀ a, tail.getLast? = some a → (lastaddr : Int) ≤ a + d.instructionLength a) := by
  induction fuel with
  | zero => intro i addr decoded emit hfuel; omega
  | succ f ih =>
    intro i addr decoded emit hfuel hi hia hamount
    rw [decodeLoop_succ]
    by_cases hc : toUintb i < amount ∧ addr < lastaddr
    · simp only [hc, and_self, if_true]
      have hi2 : i < 2 ^ 64 := by omega
      have hu := toUintb_cast i hi hi2
      have hlen := hpos addr
      have ha := addrPlus_cast addr (d.instructionLength addr) (by omega) (hfit addr hc.2)
      cases hdec : decodeOne d emit addr with
      | none =>
        refine ⟨by simp, by simp, ?_, by simp⟩
        intro he
        rw [he, decodeOne_emitdefault] at hdec
        cases hdec
      | some emit1 =>
        simp only
        have hstep : 0 < (if unit = DisassemblyUnit.UNIT_BYTE then d.instructionLength addr
            else 1) ∧ (if unit = DisassemblyUnit.UNIT_BYTE then d.instructionLength addr
            else 1) ≤ d.instructionLength addr := by
          split_ifs <;> omega
        have hfits : fitsInt (i + (if unit = DisassemblyUnit.UNIT_BYTE then
            d.instructionLength addr else 1)) = true := by
          rcases hcnt with h | h
          · have := h addr hc.2
            exact fitsInt_of _ (by omega) (by omega)
          · have := h addr hc.2
            exact fitsInt_of _ (by omega) (by omega)
        rw [if_pos hfits]
        obtain ⟨h1, h1b, h2, h3⟩ := ih
          (i + (if unit = DisassemblyUnit.UNIT_BYTE then d.instructionLength addr else 1))
          (addrPlus addr (d.instructionLength addr)) (decoded ++ [addr]) emit1
          (by omega) (by omega) (by omega)
          (by
            intro hu2
            have := hamount hu2
            rw [hu2, if_neg (by decide)]
            omega)
        refine ⟨h1, h1b, ?_, ?_⟩
        · intro he
          apply h2
          rw [he, decodeOne_emitdefault] at hdec
          exact (Option.some.inj hdec).symm
        · intro r hr
          obtain ⟨tail, ht, hI, hB, hE⟩ := h3 r hr
          refine ⟨addr :: tail, by simp [ht], ?_, ?_, ?_⟩
          · intro hu2
            have := hI hu2
            rw [hu2, if_neg (by decide)] at this
            simp only [List.length_cons]
            push_cast
            constructor <;> omega
          · intro hu2
            have h4 := hB hu2
            rw [hu2, if_pos rfl] at h4
            rw [lengthSum_cons]
            refine ⟨by omega, ?_⟩
            intro a hlastEq
            cases tail with
            | nil =>
              simp only [List.getLast?_singleton, Option.some.injEq] at hlastEq
              subst hlastEq
              have := h4.1
              rw [lengthSum_nil] at this
              omega
            | cons b bs =>
              rw [List.getLast?_cons_cons] at hlastEq
              exact h4.2 a hlastEq
          · intro hlt
            have h5 := hE hlt
            refine ⟨by simp, ?_⟩
            intro a hlastEq
            cases tail with
            | nil =>
              simp only [List.getLast?_singleton, Option.some.injEq] at hlastEq
              subst hlastEq
              have := h5.1 rfl
              omega
            | cons b bs =>
              rw [List.getLast?_cons_cons] at hlastEq
              exact h5.2 a hlastEq
    · simp only [hc, if_false]
      refine ⟨by simp, by simp, fun _ => ⟨_, rfl⟩, ?_⟩
      intro r hr
      simp only [Outcome.returned.injEq] at hr
      subst hr
      refine ⟨[], by simp, ?_, ?_, ?_⟩
      · intro hu2
        exact ⟨by simp, hamount hu2⟩
      · intro _
        exact ⟨by simp [lengthSum_nil], by simp⟩
      · intro hlt
        simp only at hlt
        refine ⟨?_, by simp⟩
        intro _
        by_contra hcon
        apply hc
        have hi2 : i < 2 ^ 64 := by omega
        have hu := toUintb_cast i hi hi2
        constructor <;> omega

/-- The first loop, for a decoder with positive lengths, ends within
`lastaddr - addr + 1` iterations, whether at an address or with `moveaddr` leaving the
range of `int`. -/
theorem skipLoop_not_outOfFuel (d : Decoder) (hpos : ∀ a, 0 < d.instructionLength a)
    (offset lastaddr : Nat)
    (hfit : ∀ a, a < lastaddr → (a : Int) + d.instructionLength a < 2 ^ 64) (fuel : Nat) :
    ∀ (moveaddr : Int) (addr : Nat), lastaddr - addr < fuel →
      skipLoop d offset lastaddr fuel moveaddr addr ≠ SkipOutcome.outOfFuel := by
  induction fuel with
  | zero => intro moveaddr addr hfuel; omega
  | succ f ih =>
    intro moveaddr addr hfuel
    rw [skipLoop_succ]
    by_cases hc : toUintb moveaddr < offset ∧ addr < lastaddr
    · rw [if_pos hc]
      have hlen := hpos addr
      have ha := addrPlus_cast addr (d.instructionLength addr) (by omega) (hfit addr hc.2)
      by_cases hf : fitsInt (moveaddr + d.instructionLength addr) = true
      · rw [if_pos hf]
        exact ih _ _ (by omega)
      · rw [if_neg hf]
        simp
    · rw [if_neg hc]
      simp

/-- The first loop, for a decoder with positive lengths and a counter that stays in the
range of `int` (the image lies below address `2 ^ 31`, or `offset` plus an instruction
length does), ends at an address within `lastaddr - addr + 1` iterations. -/
theorem skipLoop_returns (d : Decoder) (hpos : ∀ a, 0 < d.instructionLength a)
    (offset lastaddr : Nat) (hlast : lastaddr < 2 ^ 64)
    (hfit : ∀ a, a < lastaddr → (a : Int) + d.instructionLength a < 2 ^ 64)
    (hcnt : (∀ a, a < lastaddr → (a : Int) + d.instructionLength a < 2 ^ 31) ∨
      (∀ a, a < lastaddr → (offset : Int) + d.instructionLength a < 2 ^ 31)) (fuel : Nat) :
    ∀ (moveaddr : Int) (addr : Nat), lastaddr - addr < fuel → 0 ≤ moveaddr →
      moveaddr ≤ addr →
      ∃ start, skipLoop d offset lastaddr fuel moveaddr addr = SkipOutcome.reached start := by
  induction fuel with
  | zero => intro moveaddr addr hfuel; omega
  | succ f ih =>
    intro moveaddr addr hfuel hm hma
    rw [skipLoop_succ]
    by_cases hc : toUintb moveaddr < offset ∧ addr < lastaddr
    · rw [if_pos hc]
      have hlen := hpos addr
      have hu := toUintb_cast moveaddr hm (by omega)
      have ha := addrPlus_cast addr (d.instructionLength addr) (by omega) (hfit addr hc.2)
      have hfits : fitsInt (moveaddr + d.instructionLength addr) = true := by
        rcases hcnt with h | h
        · have := h addr hc.2
          exact fitsInt_of _ (by omega) (by omega)
        · have := h addr hc.2
          exact fitsInt_of _ (by omega) (by omega)
      rw [if_pos hfits]
      exact ih _ _ (by omega) (by omega) (by omega)
    · rw [if_neg hc]
      exact ⟨addr, rfl⟩

/-- The second loop, for a decoder with positive lengths, ends within
`lastaddr - addr + 1` iterations, whether by returning, at a store read out of range, or
with the counter leaving the range of `int`. -/
theorem decodeLoop_not_outOfFuel (d : Decoder) (hpos : ∀ a, 0 < d.instructionLength a)
    (unit : DisassemblyUnit) (amount lastaddr : Nat)
    (hfit : ∀ a, a < lastaddr → (a : Int) + d.instructionLength a < 2 ^ 64) (fuel : Nat) :
    ∀ (i : Int) (addr : Nat) (decoded : List Nat) (emit : Hutch_Emit),
      lastaddr - addr < fuel →
      decodeLoop d unit amount lastaddr fuel i addr decoded emit ≠ Outcome.outOfFuel := by
  induction fuel with
  | zero => intro i addr decoded emit hfuel; omega
  | succ f ih =>
    intro i addr decoded emit hfuel
    rw [decodeLoop_succ]
    by_cases hc : toUintb i < amount ∧ addr < lastaddr
    · rw [if_pos hc]
      have hlen := hpos addr
      have ha := addrPlus_cast addr (d.instructionLength addr) (by omega) (hfit addr hc.2)
      cases hdec : decodeOne d emit addr with
      | none => simp
      | some emit1 =>
        simp only
        by_cases hf : fitsInt (i + (if unit = DisassemblyUnit.UNIT_BYTE then
            d.instructionLength addr else 1)) = true
        · rw [if_pos hf]
          exact ih _ _ _ _ (by omega)
        · rw [if_neg hf]
          simp
    · rw [if_neg hc]
      simp

/-! ## Basic facts about the single-step driver -/

theorem toUint_cast (i : Int) (h0 : 0 ≤ i) (h1 : i < 2 ^ 32) : ((toUint i : Nat) : Int) = i := by
  unfold toUint
  have h2 : i % ((2 ^ 32 : Nat) : Int) = i := by
    apply Int.emod_eq_of_lt h0
    push_cast
    exact h1
  rw [h2, Int.toNat_of_nonneg h0]

/-- A first call with budget `bufsize` on fresh static variables acts like a call on the
static variables `(bufsize, 0)`. -/
theorem disassemble_iter_fresh (d : Decoder) (baseaddr imagesize offset bufsize : Nat)
    (emitter : Hutch_Emit) :
    disassemble_iter d baseaddr imagesize { bufcheck := 0, ninsnbytes := 0 } offset bufsize
        emitter =
      disassemble_iter d baseaddr imagesize { bufcheck := bufsize, ninsnbytes := 0 } offset
        bufsize emitter := by
  unfold disassemble_iter
  by_cases h : bufsize = 0
  · subst h; simp
  · have h2 : ¬ (0 = bufsize) := fun e => h e.symm
    simp [h, h2]

/-- Once the counter is above the budget a call returns 0 at once and changes nothing. -/
theorem disassemble_iter_exceeded (d : Decoder) (baseaddr imagesize offset bufsize n : Nat)
    (emitter : Hutch_Emit) (h : bufsize < n) :
    disassemble_iter d baseaddr imagesize { bufcheck := bufsize, ninsnbytes := n } offset
        bufsize emitter =
      some { ret := 0, statics := { bufcheck := bufsize, ninsnbytes := n },
             emit := emitter } := by
  unfold disassemble_iter
  simp [h]

/-- A call at an offset inside the image, with the counter within the budget, decodes one
instruction, adds its length to the counter, and returns the length unless the counter is
now above the budget. -/
theorem disassemble_iter_step (d : Decoder) (baseaddr imagesize offset bufsize n : Nat)
    (emitter : Hutch_Emit) (addr : Nat) (L : Int) (hn : n ≤ bufsize)
    (haddr : addrPlus baseaddr (offset : Int) = addr) (hL : d.instructionLength addr = L)
    (hin : addr < (baseaddr + imagesize) % 2 ^ 64)
    (h0 : 0 < L) (h1 : L < 2 ^ 31) (h2 : (n : Int) + L < 2 ^ 64) :
    disassemble_iter d baseaddr imagesize { bufcheck := bufsize, ninsnbytes := n } offset
        bufsize emitter =
      (decodeOne d emitter addr).map (fun emit1 =>
        { ret := if (n : Int) + L ≤ bufsize then L.toNat else 0,
          statics := { bufcheck := bufsize, ninsnbytes := ((n : Int) + L).toNat },
          emit := emit1 }) := by
  have hu := toUintb_cast ((n : Int) + L) (by omega) h2
  have hr := toUint_cast L (by omega) (by omega)
  have hu2 : toUintb ((n : Int) + L) = ((n : Int) + L).toNat := by omega
  have hr2 : toUint L = L.toNat := by omega
  unfold disassemble_iter
  have hn2 : ¬ (n > bufsize) := by omega
  have hin2 : ¬ ((baseaddr + imagesize) % 2 ^ 64 ≤ addr) := by omega
  simp only [if_true, hn2, if_false, haddr, hL, hin2, ite_self]
  cases hdec : decodeOne d emitter addr with
  | none => rfl
  | some emit1 =>
    simp only [Option.map_some', hu2, hr2]
    by_cases hle : (n : Int) + L ≤ bufsize
    · have h3 : ¬ (((n : Int) + L).toNat > bufsize) := by omega
      simp [hle, h3]
    · have h3 : ((n : Int) + L).toNat > bufsize := by omega
      simp [hle, h3]

theorem iterCalls_nil (d : Decoder) (baseaddr imagesize bufsize : Nat) (s : IterStatics)
    (emit : Hutch_Emit) :
    iterCalls d baseaddr imagesize bufsize s emit [] = some ([], s, emit) := rfl

theorem iterCalls_cons (d : Decoder) (baseaddr imagesize bufsize : Nat) (s : IterStatics)
    (emit : Hutch_Emit) (offset : Nat) (offsets : List Nat) :
    iterCalls d baseaddr imagesize bufsize s emit (offset :: offsets) =
      match disassemble_iter d baseaddr imagesize s offset bufsize emit with
      | none => none
      | some r =>
        match iterCalls d baseaddr imagesize bufsize r.statics r.emit offsets with
        | none => none
        | some (rets, s1, emit1) => some (r.ret :: rets, s1, emit1) := rfl

/-- A sequence of calls on fresh static variables returns what it returns on the static
variables `(bufsize, 0)`. -/
theorem iterCalls_fresh (d : Decoder) (baseaddr imagesize bufsize : Nat) (emit : Hutch_Emit)
    (offsets : List Nat) (rets : List Nat) (s1 : IterStatics) (emit1 : Hutch_Emit)
    (h : iterCalls d baseaddr imagesize bufsize { bufcheck := 0, ninsnbytes := 0 } emit offsets =
      some (rets, s1, emit1)) :
    ∃ s2, iterCalls d baseaddr imagesize bufsize { bufcheck := bufsize, ninsnbytes := 0 } emit
      offsets = some (rets, s2, emit1) := by
  cases offsets with
  | nil =>
    rw [iterCalls_nil] at h
    simp only [Option.some.injEq, Prod.mk.injEq] at h
    obtain ⟨h1, _, h3⟩ := h
    exact ⟨_, by rw [iterCalls_nil, ← h1, ← h3]⟩
  | cons o os =>
    rw [iterCalls_cons, disassemble_iter_fresh] at h
    exact ⟨s1, by rw [iterCalls_cons]; exact h⟩

/-- The budget invariant along a sequence of calls with one budget: `acc` is the cumulative
length of the instructions requested so far, `n` the counter `ninsnbytes`. -/
theorem iterCalls_budget (d : Decoder) (baseaddr imagesize bufsize : Nat) :
    ∀ (offsets : List Nat) (n : Nat) (acc : Int) (emit : Hutch_Emit) (rets : List Nat)
      (s1 : IterStatics) (emit1 : Hutch_Emit),
      (∀ o ∈ offsets, addrPlus baseaddr (o : Int) < (baseaddr + imagesize) % 2 ^ 64 ∧
        0 < d.instructionLength (addrPlus baseaddr (o : Int)) ∧
        d.instructionLength (addrPlus baseaddr (o : Int)) < 2 ^ 31) →
      0 ≤ acc → (acc ≤ bufsize → (n : Int) = acc) → ((bufsize : Int) < acc → bufsize < n) →
      ((bufsize : Int) + 2 ^ 31 ≤ 2 ^ 64 ∨
        acc + lengthSum d (offsets.map (fun o : Nat => addrPlus baseaddr (o : Int))) < 2 ^ 64) →
      iterCalls d baseaddr imagesize bufsize { bufcheck := bufsize, ninsnbytes := n } emit
        offsets = some (rets, s1, emit1) →
      rets.length = offsets.length ∧
      (acc ≤ bufsize → acc + ((rets.sum : Nat) : Int) ≤ bufsize) ∧
      ((bufsize : Int) < acc → rets.sum = 0) ∧
      ∀ (k r : Nat), rets[k]? = some r →
        (bufsize : Int) < acc +
          lengthSum d ((offsets.take (k + 1)).map (fun o : Nat => addrPlus baseaddr (o : Int))) →
        r = 0 := by
  intro offsets
  induction offsets with
  | nil =>
    intro n acc emit rets s1 emit1 _ _ _ _ _ h
    rw [iterCalls_nil] at h
    simp only [Option.some.injEq, Prod.mk.injEq] at h
    obtain ⟨h1, _, _⟩ := h
    subst h1
    simp
  | cons o os ih =>
    intro n acc emit rets s1 emit1 hall hacc hle hgt hsum h
    have ho := hall o (List.mem_cons_self _ _)
    have hos : ∀ o2 ∈ os, addrPlus baseaddr (o2 : Int) < (baseaddr + imagesize) % 2 ^ 64 ∧
        0 < d.instructionLength (addrPlus baseaddr (o2 : Int)) ∧
        d.instructionLength (addrPlus baseaddr (o2 : Int)) < 2 ^ 31 :=
      fun o2 h2 => hall o2 (List.mem_cons_of_mem _ h2)
    simp only [List.map_cons, lengthSum_cons] at hsum
    have hrest := lengthSum_nonneg_of d (os.map (fun o : Nat => addrPlus baseaddr (o : Int)))
      (by
        intro a ha
        rw [List.mem_map] at ha
        obtain ⟨o2, ho2, rfl⟩ := ha
        exact (hos o2 ho2).2.1)
    have hsum2 : (bufsize : Int) + 2 ^ 31 ≤ 2 ^ 64 ∨
        acc + d.instructionLength (addrPlus baseaddr (o : Int)) +
          lengthSum d (os.map (fun o : Nat => addrPlus baseaddr (o : Int))) < 2 ^ 64 := by
      rcases hsum with h1 | h1
      · exact Or.inl h1
      · exact Or.inr (by omega)
    rw [iterCalls_cons] at h
    by_cases hn : bufsize < n
    · -- the budget was exceeded before this call
      have hacc2 : (bufsize : Int) < acc := by
        by_contra hcon
        have := hle (by omega)
        omega
      rw [disassemble_iter_exceeded d baseaddr imagesize o bufsize n emit hn] at h
      simp only at h
      cases hrec : iterCalls d baseaddr imagesize bufsize
          { bufcheck := bufsize, ninsnbytes := n } emit os with
      | none => rw [hrec] at h; cases h
      | some res =>
        obtain ⟨rets2, s2, emit2⟩ := res
        rw [hrec] at h
        simp only [Option.some.injEq, Prod.mk.injEq] at h
        obtain ⟨h1, _, _⟩ := h
        subst h1
        obtain ⟨i1, _, i3, i4⟩ := ih n
          (acc + d.instructionLength (addrPlus baseaddr (o : Int))) emit rets2 s2 emit2 hos
          (by omega) (by intro hc; omega) (by intro _; exact hn) hsum2 hrec
        refine ⟨by simp [i1], by intro hc; omega, ?_, ?_⟩
        · intro _
          simp [i3 (by omega)]
        · intro k r hk hlt
          cases k with
          | zero =>
            simp only [List.getElem?_cons_zero, Option.some.injEq] at hk
            exact hk.symm
          | succ k =>
            simp only [List.getElem?_cons_succ] at hk
            apply i4 k r hk
            simp only [List.take_succ_cons, List.map_cons, lengthSum_cons] at hlt
            omega
    · -- the counter is within the budget: one instruction is decoded
      have hacc2 : acc ≤ bufsize := by
        by_contra hcon
        have := hgt (by omega)
        omega
      have hnacc := hle hacc2
      have hnowrap : (n : Int) + d.instructionLength (addrPlus baseaddr (o : Int)) < 2 ^ 64 := by
        rcases hsum with h1 | h1 <;> omega
      rw [disassemble_iter_step d baseaddr imagesize o bufsize n emit
        (addrPlus baseaddr (o : Int)) (d.instructionLength (addrPlus baseaddr (o : Int)))
        (by omega) rfl rfl ho.1 ho.2.1 ho.2.2 hnowrap] at h
      cases hdec : decodeOne d emit (addrPlus baseaddr (o : Int)) with
      | none => rw [hdec] at h; cases h
      | some emit3 =>
        rw [hdec] at h
        simp only [Option.map_some'] at h
        cases hrec : iterCalls d baseaddr imagesize bufsize
            { bufcheck := bufsize,
              ninsnbytes :=
                ((n : Int) + d.instructionLength (addrPlus baseaddr (o : Int))).toNat }
            emit3 os with
        | none => rw [hrec] at h; cases h
        | some res =>
          obtain ⟨rets2, s2, emit2⟩ := res
          rw [hrec] at h
          simp only [Option.some.injEq, Prod.mk.injEq] at h
          obtain ⟨h1, _, _⟩ := h
          subst h1
          obtain ⟨i1, i2, i3, i4⟩ := ih
            ((n : Int) + d.instructionLength (addrPlus baseaddr (o : Int))).toNat
            (acc + d.instructionLength (addrPlus baseaddr (o : Int))) emit3 rets2 s2 emit2 hos
            (by omega) (by intro _; omega) (by intro _; omega) hsum2 hrec
          refine ⟨by simp [i1], ?_, by intro hc; omega, ?_⟩
          · intro _
            by_cases hfit : (n : Int) + d.instructionLength (addrPlus baseaddr (o : Int)) ≤
                bufsize
            · have := i2 (by omega)
              simp only [hfit, if_true, List.sum_cons]
              omega
            · have := i3 (by omega)
              simp only [hfit, if_false, List.sum_cons, this]
              omega
          · intro k r hk hlt
            cases k with
            | zero =>
              simp only [List.getElem?_cons_zero, Option.some.injEq] at hk
              simp only [List.take_succ_cons, List.take_zero, List.map_cons, List.map_nil,
                lengthSum_cons, lengthSum_nil, add_zero] at hlt
              have hfit : ¬ ((n : Int) + d.instructionLength (addrPlus baseaddr (o : Int)) ≤
                  bufsize) := by omega
              rw [if_neg hfit] at hk
              exact hk.symm
            | succ k =>
              simp only [List.getElem?_cons_succ] at hk
              apply i4 k r hk
              simp only [List.take_succ_cons, List.map_cons, lengthSum_cons] at hlt
              omega

/-- On the printing sink a sequence of calls always returns. -/
theorem iterCalls_emitdefault (d : Decoder) (baseaddr imagesize bufsize : Nat) :
    ∀ (offsets : List Nat) (s : IterStatics),
      ∃ rets s1, iterCalls d baseaddr imagesize bufsize s Hutch_Emit.emitdefault offsets =
        some (rets, s1, Hutch_Emit.emitdefault) := by
  intro offsets
  induction offsets with
  | nil => intro s; exact ⟨[], s, rfl⟩
  | cons o os ih =>
    intro s
    rw [iterCalls_cons]
    have hstep : ∃ r, disassemble_iter d baseaddr imagesize s o bufsize
        Hutch_Emit.emitdefault = some r ∧ r.emit = Hutch_Emit.emitdefault := by
      unfold disassemble_iter
      simp only [decodeOne_emitdefault]
      split_ifs <;> exact ⟨_, rfl, rfl⟩
    obtain ⟨r, hr, he⟩ := hstep
    obtain ⟨rets, s1, h1⟩ := ih r.statics
    rw [hr]
    simp only [he, h1]
    exact ⟨_, _, rfl⟩

/-- Where the first loop ends, for a decoder with positive lengths: at or past the image
end, or with at least `offset` bytes skipped. -/
theorem skipLoop_end (d : Decoder) (hpos : ∀ a, 0 < d.instructionLength a)
    (baseaddr offset lastaddr : Nat) (hlast : lastaddr < 2 ^ 64)
    (hfit : ∀ a, a < lastaddr → (a : Int) + d.instructionLength a < 2 ^ 64) (fuel : Nat) :
    ∀ (moveaddr : Int) (addr start : Nat), moveaddr = (addr : Int) - baseaddr →
      baseaddr ≤ addr →
      skipLoop d offset lastaddr fuel moveaddr addr = SkipOutcome.reached start →
      lastaddr ≤ start ∨ (offset : Int) ≤ (start : Int) - baseaddr := by
  induction fuel with
  | zero => intro moveaddr addr start _ _ h; cases h
  | succ f ih =>
    intro moveaddr addr start hm hb h
    rw [skipLoop_succ] at h
    by_cases hc : toUintb moveaddr < offset ∧ addr < lastaddr
    · rw [if_pos hc] at h
      have hlen := hpos addr
      have ha := addrPlus_cast addr (d.instructionLength addr) (by omega) (hfit addr hc.2)
      by_cases hf : fitsInt (moveaddr + d.instructionLength addr) = true
      · rw [if_pos hf] at h
        exact ih _ _ start (by omega) (by omega) h
      · rw [if_neg hf] at h
        cases h
    · rw [if_neg hc] at h
      simp only [SkipOutcome.reached.injEq] at h
      subst h
      by_cases hlt : addr < lastaddr
      · right
        have hu := toUintb_cast moveaddr (by omega) (by omega)
        by_contra hcon
        apply hc
        constructor <;> omega
      · left; omega

/-- Without wrap-around of the start address, an `offset` at or past the image size makes
`disassemble` return 0 with nothing decoded and the sink as it was; in `UNIT_INSN` mode
provided the counter of the first loop stays in the range of `int` (the image lies below
address `2 ^ 31`, or `offset` plus an instruction length does). -/
theorem disassemble_offset_past_end (d : Decoder) (baseaddr imagesize fuel : Nat)
    (unit : DisassemblyUnit) (offset amount : Nat) (emitter : Hutch_Emit)
    (hpos : ∀ a, 0 < d.instructionLength a)
    (hfit : ∀ a, a < baseaddr + imagesize → (a : Int) + d.instructionLength a < 2 ^ 64)
    (h64 : baseaddr + imagesize < 2 ^ 64) (hoff : imagesize ≤ offset)
    (hbyte : unit = DisassemblyUnit.UNIT_BYTE → baseaddr + offset < 2 ^ 64)
    (hinsn : unit = DisassemblyUnit.UNIT_INSN →
      (∀ a, a < baseaddr + imagesize → (a : Int) + d.instructionLength a < 2 ^ 31) ∨
      (∀ a, a < baseaddr + imagesize → (offset : Int) + d.instructionLength a < 2 ^ 31))
    (hfuel : baseaddr + imagesize < fuel) :
    disassemble d baseaddr imagesize fuel unit offset amount emitter =
      Outcome.returned { units := 0, decoded := [], emit := emitter } := by
  have hlast : (baseaddr + imagesize) % 2 ^ 64 = baseaddr + imagesize := Nat.mod_eq_of_lt h64
  obtain ⟨f, rfl⟩ : ∃ f, fuel = f + 1 := ⟨fuel - 1, by omega⟩
  have hstart : ∃ start, startAddr d baseaddr imagesize (f + 1) unit offset =
      SkipOutcome.reached start ∧ baseaddr + imagesize ≤ start := by
    cases unit with
    | UNIT_BYTE =>
      rw [startAddr_byte]
      refine ⟨_, rfl, ?_⟩
      have h1 := hbyte rfl
      have h2 := addrPlus_cast baseaddr (offset : Int) (by omega) (by omega)
      omega
    | UNIT_INSN =>
      have h1 : startAddr d baseaddr imagesize (f + 1) DisassemblyUnit.UNIT_INSN offset =
          skipLoop d offset (baseaddr + imagesize) (f + 1) 0 baseaddr := by
        unfold startAddr
        rw [if_pos rfl, hlast]
      obtain ⟨start, h2⟩ := skipLoop_returns d hpos offset (baseaddr + imagesize) h64 hfit
        (hinsn rfl) (f + 1) 0 baseaddr (by omega) (le_refl 0) (by omega)
      refine ⟨start, by rw [h1, h2], ?_⟩
      rcases skipLoop_end d hpos baseaddr offset (baseaddr + imagesize) h64 hfit (f + 1) 0
        baseaddr start (by omega) (le_refl _) h2 with h3 | h3 <;> omega
  obtain ⟨start, hs, hge⟩ := hstart
  rw [disassemble_eq, hs, hlast]
  simp only
  rw [decodeLoop_succ]
  have hc : ¬ (toUintb 0 < amount ∧ start < baseaddr + imagesize) := by omega
  rw [if_neg hc]

/-! ## Basic facts about the image window -/

/-- For a non-empty image of at most `2^31` bytes that lies inside the 64-bit address
space, one iteration of `loadFill` writes the image byte for an address inside the window and
0 for an address outside it, and never reads outside `buf`. -/
theorem loadFillByte_window (img : DefaultLoadImage) (start i : Nat)
    (hbuf : img.buf.length = img.bufsize) (hne : 0 < img.bufsize)
    (hsmall : img.bufsize ≤ 2 ^ 31) (h64 : img.baseaddr + img.bufsize ≤ 2 ^ 64)
    (hreq : start + i < 2 ^ 64) :
    loadFillByte img start i =
      some (if img.baseaddr ≤ start + i ∧ start + i < img.baseaddr + img.bufsize
        then img.buf.getD (start + i - img.baseaddr) 0 else 0) := by
  unfold loadFillByte
  have hmax : (img.baseaddr + (img.bufsize + 2 ^ 64 - 1) % 2 ^ 64) % 2 ^ 64 =
      img.baseaddr + img.bufsize - 1 := by omega
  have hcur : (start + i) % 2 ^ 64 = start + i := Nat.mod_eq_of_lt hreq
  simp only [hmax, hcur]
  by_cases hin : img.baseaddr ≤ start + i ∧ start + i < img.baseaddr + img.bufsize
  · have h1 : ¬ (start + i < img.baseaddr ∨ start + i > img.baseaddr + img.bufsize - 1) := by
      omega
    have hdiff : (start + i + 2 ^ 64 - img.baseaddr) % 2 ^ 64 = start + i - img.baseaddr := by
      omega
    have h4 : toInt4 (start + i - img.baseaddr) = ((start + i - img.baseaddr : Nat) : Int) := by
      unfold toInt4
      have h5 : (start + i - img.baseaddr) % 2 ^ 32 = start + i - img.baseaddr := by omega
      rw [h5, if_pos (by omega)]
    have hlt : start + i - img.baseaddr < img.buf.length := by omega
    simp only [h1, if_false, hdiff, h4, Int.natCast_nonneg, if_true, Int.toNat_ofNat, hin,
      and_self]
    rw [List.getElem?_eq_getElem hlt, List.getD_eq_getElem _ _ hlt]
  · have h1 : start + i < img.baseaddr ∨ start + i > img.baseaddr + img.bufsize - 1 := by
      omega
    simp only [h1, if_true, hin, if_false]

/-! ## Further facts about the two drivers -/

/-- The first loop never moves the address backwards, for a decoder with positive
lengths. -/
theorem skipLoop_ge (d : Decoder) (hpos : ∀ a, 0 < d.instructionLength a)
    (offset lastaddr : Nat)
    (hfit : ∀ a, a < lastaddr → (a : Int) + d.instructionLength a < 2 ^ 64) (fuel : Nat) :
    ∀ (moveaddr : Int) (addr start : Nat),
      skipLoop d offset lastaddr fuel moveaddr addr = SkipOutcome.reached start →
      addr ≤ start := by
  induction fuel with
  | zero => intro moveaddr addr start h; cases h
  | succ f ih =>
    intro moveaddr addr start h
    rw [skipLoop_succ] at h
    by_cases hc : toUintb moveaddr < offset ∧ addr < lastaddr
    · rw [if_pos hc] at h
      have hlen := hpos addr
      have ha := addrPlus_cast addr (d.instructionLength addr) (by omega) (hfit addr hc.2)
      by_cases hf : fitsInt (moveaddr + d.instructionLength addr) = true
      · rw [if_pos hf] at h
        have := ih _ _ start h
        omega
      · rw [if_neg hf] at h
        cases h
    · rw [if_neg hc] at h
      simp only [SkipOutcome.reached.injEq] at h
      omega

/-- The second loop decodes at most one instruction per address left below the image end,
for a decoder with positive lengths. -/
theorem decodeLoop_length_le (d : Decoder) (hpos : ∀ a, 0 < d.instructionLength a)
    (unit : DisassemblyUnit) (amount lastaddr : Nat)
    (hfit : ∀ a, a < lastaddr → (a : Int) + d.instructionLength a < 2 ^ 64) (fuel : Nat) :
    ∀ (i : Int) (addr : Nat) (decoded : List Nat) (emit : Hutch_Emit) (r : Disassembly),
      decodeLoop d unit amount lastaddr fuel i addr decoded emit = Outcome.returned r →
      r.decoded.length ≤ decoded.length + (lastaddr - addr) := by
  induction fuel with
  | zero => intro i addr decoded emit r h; cases h
  | succ f ih =>
    intro i addr decoded emit r h
    rw [decodeLoop_succ] at h
    by_cases hc : toUintb i < amount ∧ addr < lastaddr
    · rw [if_pos hc] at h
      have hlen := hpos addr
      have ha := addrPlus_cast addr (d.instructionLength addr) (by omega) (hfit addr hc.2)
      cases hdec : decodeOne d emit addr with
      | none => rw [hdec] at h; cases h
      | some emit1 =>
        rw [hdec] at h
        simp only at h
        by_cases hf : fitsInt (i + (if unit = DisassemblyUnit.UNIT_BYTE then
            d.instructionLength addr else 1)) = true
        · rw [if_pos hf] at h
          have := ih _ _ _ _ r h
          simp only [List.length_append, List.length_singleton] at this
          omega
        · rw [if_neg hf] at h
          cases h
    · rw [if_neg hc] at h
      simp only [Outcome.returned.injEq] at h
      subst h
      simp

/-- With fuel above the image end, `disassemble` does not run out of fuel, for a decoder
with positive lengths: the run ends, by returning, at a store read out of range, or with a
counter leaving the range of `int`. -/
theorem disassemble_not_outOfFuel (d : Decoder) (baseaddr imagesize fuel : Nat)
    (unit : DisassemblyUnit) (offset amount : Nat) (emitter : Hutch_Emit)
    (hpos : ∀ a, 0 < d.instructionLength a)
    (hfit : ∀ a, a < (baseaddr + imagesize) % 2 ^ 64 →
      (a : Int) + d.instructionLength a < 2 ^ 64)
    (hfuel : (baseaddr + imagesize) % 2 ^ 64 < fuel) :
    disassemble d baseaddr imagesize fuel unit offset amount emitter ≠ Outcome.outOfFuel := by
  have hs : startAddr d baseaddr imagesize fuel unit offset ≠ SkipOutcome.outOfFuel := by
    unfold startAddr
    split_ifs
    · exact skipLoop_not_outOfFuel d hpos offset _ hfit fuel 0 baseaddr (by omega)
    · simp
  rw [disassemble_eq]
  cases hst : startAddr d baseaddr imagesize fuel unit offset with
  | outOfFuel => exact absurd hst hs
  | intOverflow => simp
  | reached start =>
    simp only
    exact decodeLoop_not_outOfFuel d hpos unit amount _ hfit fuel 0 start [] emitter
      (by omega)

/-- Termination of `disassemble` for a decoder with positive lengths, on an image inside
the 64-bit address space whose instructions end inside it: with fuel above the image end
no loop runs out of fuel; and when the start address does not wrap, the second loop decodes
at most `imagesize` instructions. -/
theorem disassemble_terminates (d : Decoder) (baseaddr imagesize fuel : Nat)
    (unit : DisassemblyUnit) (offset amount : Nat) (emitter : Hutch_Emit)
    (hpos : ∀ a, 0 < d.instructionLength a)
    (hfit : ∀ a, a < baseaddr + imagesize → (a : Int) + d.instructionLength a < 2 ^ 64)
    (h64 : baseaddr + imagesize < 2 ^ 64) (hfuel : baseaddr + imagesize < fuel) :
    disassemble d baseaddr imagesize fuel unit offset amount emitter ≠ Outcome.outOfFuel ∧
    ((unit = DisassemblyUnit.UNIT_BYTE → baseaddr + offset < 2 ^ 64) →
      ∀ r, disassemble d baseaddr imagesize fuel unit offset amount emitter =
        Outcome.returned r → r.decoded.length ≤ imagesize) := by
  have hlast : (baseaddr + imagesize) % 2 ^ 64 = baseaddr + imagesize := Nat.mod_eq_of_lt h64
  have hfit2 : ∀ a, a < (baseaddr + imagesize) % 2 ^ 64 →
      (a : Int) + d.instructionLength a < 2 ^ 64 := by
    rw [hlast]; exact hfit
  constructor
  · exact disassemble_not_outOfFuel d baseaddr imagesize fuel unit offset amount emitter hpos
      hfit2 (by omega)
  · intro hstart r hr
    rw [disassemble_eq] at hr
    cases hst : startAddr d baseaddr imagesize fuel unit offset with
    | outOfFuel => rw [hst] at hr; cases hr
    | intOverflow => rw [hst] at hr; cases hr
    | reached start =>
      rw [hst, hlast] at hr
      simp only at hr
      have hge : baseaddr ≤ start := by
        cases unit with
        | UNIT_BYTE =>
          rw [startAddr_byte] at hst
          simp only [SkipOutcome.reached.injEq] at hst
          have h1 := hstart rfl
          have h2 := addrPlus_cast baseaddr (offset : Int) (by omega) (by omega)
          omega
        | UNIT_INSN =>
          have h1 : startAddr d baseaddr imagesize fuel DisassemblyUnit.UNIT_INSN offset =
              skipLoop d offset (baseaddr + imagesize) fuel 0 baseaddr := by
            unfold startAddr
            rw [if_pos rfl, hlast]
          rw [h1] at hst
          exact skipLoop_ge d hpos offset (baseaddr + imagesize) hfit fuel 0 baseaddr start hst
      have := decodeLoop_length_le d hpos unit amount (baseaddr + imagesize) hfit fuel 0 start
        [] emitter r hr
      simp only [List.length_nil, zero_add] at this
      omega

theorem bufcheck_update (s : IterStatics) (bufsize : Nat) :
    (if s.bufcheck = 0 then bufsize
      else if s.bufcheck = bufsize then s.bufcheck else bufsize) = bufsize := by
  split_ifs with h1 h2
  · rfl
  · exact h2
  · rfl

/-- The three ways a call of `disassemble_iter` goes: back at once when the count at
entry is above the budget, back at once when the offset is at or past the image end, and
otherwise through the decoder calls before the budget is tested again. -/
theorem disassemble_iter_cases (d : Decoder) (baseaddr imagesize : Nat) (s : IterStatics)
    (offset bufsize : Nat) (emitter : Hutch_Emit) :
    disassemble_iter d baseaddr imagesize s offset bufsize emitter =
      if bufsize < entryCount s bufsize ∨
          (baseaddr + imagesize) % 2 ^ 64 ≤ addrPlus baseaddr (offset : Int) then
        some { ret := 0,
               statics := { bufcheck := bufsize, ninsnbytes := entryCount s bufsize },
               emit := emitter }
      else
        (decodeOne d emitter (addrPlus baseaddr (offset : Int))).map (fun emit1 =>
          { ret :=
              if bufsize < toUintb ((entryCount s bufsize : Int) +
                  d.instructionLength (addrPlus baseaddr (offset : Int))) then 0
              else toUint (d.instructionLength (addrPlus baseaddr (offset : Int))),
            statics :=
              { bufcheck := bufsize,
                ninsnbytes := toUintb ((entryCount s bufsize : Int) +
                  d.instructionLength (addrPlus baseaddr (offset : Int))) },
            emit := emit1 }) := by
  unfold disassemble_iter
  simp only [bufcheck_update, entryCount, gt_iff_lt]
  by_cases h1 : bufsize < (if s.bufcheck = bufsize then s.ninsnbytes else 0)
  · rw [if_pos h1, if_pos (Or.inl h1)]
  · rw [if_neg h1]
    by_cases h2 : (baseaddr + imagesize) % 2 ^ 64 ≤ addrPlus baseaddr (offset : Int)
    · rw [if_pos h2, if_pos (Or.inr h2)]
    · rw [if_neg h2, if_neg (not_or.2 ⟨h1, h2⟩)]
      cases hdec : decodeOne d emitter (addrPlus baseaddr (offset : Int)) with
      | none => rfl
      | some emit1 =>
        simp only [Option.map_some']
        split_ifs <;> rfl

/-! ## The claims -/

/-- C1: for every finite sequence of `dumpAsm` / `dumpPcode` calls applied to the empty
store, the store after each call (after the first `k` calls, for every `k`) has strictly
ascending addresses, and hence no address twice. -/
theorem store_addresses_strictly_ascending (es : List Emission) (k : Nat)
    (v : List Instruction) (h : run (es.take k) [] = some v) :
    (v.map (fun r => r.address)).Pairwise (fun a b => a < b) ∧
      (v.map (fun r => r.address)).Nodup := by
  have hasc : Ascending v := ascending_run (by simp [Ascending]) h
  rw [ascending_iff_map] at hasc
  exact ⟨hasc, hasc.imp (fun hab => Nat.ne_of_lt hab)⟩

theorem store_addresses_strictly_ascending_witness :
    run ([Emission.asm 5 "nop" "", Emission.pcode 5 opA, Emission.asm 3 "ret" "",
        Emission.pcode 4 opB].take 3) [] =
      some [⟨3, "ret ", []⟩, ⟨5, "nop ", [opA]⟩] ∧
    (([⟨3, "ret ", []⟩, ⟨5, "nop ", [opA]⟩] : List Instruction).map
        (fun r => r.address)).Pairwise (fun a b => a < b) ∧
    (([⟨3, "ret ", []⟩, ⟨5, "nop ", [opA]⟩] : List Instruction).map
        (fun r => r.address)).Nodup :=
  ⟨by decide,
    store_addresses_strictly_ascending
      [Emission.asm 5 "nop" "", Emission.pcode 5 opA, Emission.asm 3 "ret" "",
        Emission.pcode 4 opB] 3 [⟨3, "ret ", []⟩, ⟨5, "nop ", [opA]⟩] (by decide)⟩

/-- C2: the store `[(5, "nop ", [])]` is reachable and has no record at address 3, yet
`dumpPcode` at address 3 creates no record there: the micro-operation is appended to the
front record, of address 5, because its list is empty. -/
theorem dumpPcode_new_address_lands_on_front :
    run [Emission.asm 5 "nop" ""] [] = some [⟨5, "nop ", []⟩] ∧
    dumpPcode [⟨5, "nop ", []⟩] 3 opA = some [⟨5, "nop ", [opA]⟩] := by
  decide

/-- C3: the store `[(0, "nop ", [])]` is reachable and has no record at address 1, yet
`dumpAsm` at address 1 yields no store: `lower_bound` gives `index = 1 = size ()` and the
check reads `instructions[1]`, outside the vector. -/
theorem dumpAsm_above_all_reads_past_end :
    run [Emission.asm 0 "nop" ""] [] = some [⟨0, "nop ", []⟩] ∧
    lower_bound [⟨0, "nop ", []⟩] 1 = 1 ∧
    dumpAsm [⟨0, "nop ", []⟩] 1 "ret" "" = none := by
  decide

/-- C4: first write wins.  In a reachable store whose record `r` at address `a` has
non-empty assembly text, every `dumpAsm` call at `a`, with the same or another text, returns
the store unchanged; the text read at `a` is that of `r` alone; and if the store arose from
a `dumpAsm` call at `a` on a store without text at `a`, it is the text that call
supplied. -/
theorem dumpAsm_first_write_wins (v : List Instruction) (hv : Reachable v) (a : Nat)
    (r : Instruction) (hr : r ∈ v) (ha : r.address = a) (ht : r.assembly ≠ "") :
    (∀ mnem body : String, dumpAsm v a mnem body = some v) ∧
    (∀ x ∈ v, x.address = a → x.assembly = r.assembly) ∧
    (∀ (v0 : List Instruction) (m0 b0 : String),
      (∀ x ∈ v0, x.address = a → x.assembly = "") →
      dumpAsm v0 a m0 b0 = some v → r.assembly = m0 ++ " " ++ b0) := by
  have hasc := ascending_of_reachable hv
  refine ⟨fun mnem body => dumpAsm_unchanged hasc hr ha ht mnem body, ?_, ?_⟩
  · intro x hx hxa
    rw [ascending_address_unique hasc hx hr (hxa.trans ha.symm)]
  · intro v0 m0 b0 h0 h
    exact dumpAsm_first_text h0 h hr ha ht

theorem dumpAsm_first_write_wins_witness :
    dumpAsm [⟨5, "nop ", [opA]⟩] 5 "ret" "" = some [⟨5, "nop ", [opA]⟩] ∧
    dumpAsm [⟨5, "nop ", [opA]⟩] 5 "nop" "" = some [⟨5, "nop ", [opA]⟩] :=
  have h := dumpAsm_first_write_wins [⟨5, "nop ", [opA]⟩]
    ⟨[Emission.asm 5 "nop" "", Emission.pcode 5 opA], by decide⟩ 5 ⟨5, "nop ", [opA]⟩
    (List.mem_singleton.2 rfl) rfl (by decide)
  ⟨h.1 "ret" "", h.1 "nop" ""⟩

/-- C5: the store `[(0, "nop ", [opA])]` is reachable, yet already the first of two
`dumpPcode` calls with address 1 and the same micro-operation yields no store: address 1
is above every stored address, `lower_bound` gives `index = size ()` and the check reads
`instructions[1]`, outside the vector. -/
theorem dumpPcode_twice_above_all_reads_past_end :
    run [Emission.asm 0 "nop" "", Emission.pcode 0 opA] [] = some [⟨0, "nop ", [opA]⟩] ∧
    dumpPcode [⟨0, "nop ", [opA]⟩] 1 opB = none ∧
    run [Emission.pcode 1 opB, Emission.pcode 1 opB] [⟨0, "nop ", [opA]⟩] = none := by
  decide

/-- C6: from the empty store, a non-empty sequence of `dumpPcode` calls that all use the
address `a` ends with exactly one record, at `a`, with empty text, whose micro-operation
list is the supplied sequence with repeated operations removed, in order of first
occurrence. -/
theorem dumpPcode_same_address_first_occurrences (a : Nat) (ps : List PcodeData)
    (h : ps ≠ []) :
    run (ps.map (Emission.pcode a)) [] =
      some [{ address := a, assembly := "", pcode := spec_firstOccurrences ps }] := by
  cases ps with
  | nil => exact absurd rfl h
  | cons p ps =>
    have h1 : run ((p :: ps).map (Emission.pcode a)) [] =
        run (ps.map (Emission.pcode a)) [{ address := a, assembly := "", pcode := [p] }] := rfl
    rw [h1, run_pcode_single ps (List.cons_ne_nil p []), foldl_addOp]
    simp [spec_firstOccurrences]

theorem dumpPcode_same_address_first_occurrences_witness :
    [opA, opB, opA] ≠ [] ∧
    spec_firstOccurrences [opA, opB, opA] = [opA, opB] ∧
    run ([opA, opB, opA].map (Emission.pcode 100)) [] =
      some [{ address := 100, assembly := "",
              pcode := spec_firstOccurrences [opA, opB, opA] }] :=
  ⟨by decide, by decide,
    dumpPcode_same_address_first_occurrences 100 [opA, opB, opA] (by decide)⟩

/-- C7: for every finite sequence of `dumpAsm` / `dumpPcode` calls applied to the empty
store, after each call (after the first `k` calls, for every `k`) no record holds two equal
micro-operations, equality being that of operation code, output and input sequence. -/
theorem store_pcode_no_duplicates (es : List Emission) (k : Nat) (v : List Instruction)
    (h : run (es.take k) [] = some v) : ∀ r ∈ v, r.pcode.Nodup :=
  noDupOps_run (fun _ hx => absurd hx (List.not_mem_nil _)) h

theorem store_pcode_no_duplicates_witness :
    run ([Emission.pcode 100 opA, Emission.pcode 100 opB, Emission.pcode 100 opA].take 3) [] =
      some [⟨100, "", [opA, opB]⟩] ∧
    ∀ r ∈ ([⟨100, "", [opA, opB]⟩] : List Instruction), r.pcode.Nodup :=
  ⟨by decide,
    store_pcode_no_duplicates
      [Emission.pcode 100 opA, Emission.pcode 100 opB, Emission.pcode 100 opA] 3
      [⟨100, "", [opA, opB]⟩] (by decide)⟩

/-- C8: on the reachable store `[(5, "nop ", [])]` and address 3 the two orders give
different stores: `dumpAsm` then `dumpPcode` puts the micro-operation on the new record of
address 3 (by then the front one), `dumpPcode` then `dumpAsm` puts it on the record of
address 5 and leaves the record of address 3 without micro-operation. -/
theorem dumpAsm_dumpPcode_order_matters :
    run [Emission.asm 5 "nop" ""] [] = some [⟨5, "nop ", []⟩] ∧
    run [Emission.asm 3 "ret" "", Emission.pcode 3 opA] [⟨5, "nop ", []⟩] =
      some [⟨3, "ret ", [opA]⟩, ⟨5, "nop ", []⟩] ∧
    run [Emission.pcode 3 opA, Emission.asm 3 "ret" ""] [⟨5, "nop ", []⟩] =
      some [⟨3, "ret ", []⟩, ⟨5, "nop ", [opA]⟩] := by
  decide

/-- C9: with two-byte instructions on an eight-byte image at base 0,
`disassemble (UNIT_INSN, 2, 1)` begins decoding at address 2, after one instruction, whereas
skipping two instructions leads to address 4: the first loop compares the bytes skipped,
not the instructions skipped, with `offset`. -/
theorem disassemble_insn_offset_counts_bytes :
    disassemble (fixedDecoder 2 "nop" []) 0 8 8 DisassemblyUnit.UNIT_INSN 2 1
        Hutch_Emit.emitdefault =
      Outcome.returned { units := 1, decoded := [2], emit := Hutch_Emit.emitdefault } ∧
    spec_skipInstructions (fixedDecoder 2 "nop" []) 2 0 = 4 := by
  decide

/-- C10: on a four-byte image at base 0 with one-byte instructions,
`disassemble (UNIT_INSN, 0, 3)` into an empty store does not return 3 with three records:
the `dumpAsm` call of the second instruction, address 1, reads `instructions[1]` of a
one-element vector, so the run has no defined result, whatever the fuel. -/
theorem disassemble_store_second_insn_reads_past_end (fuel : Nat) :
    disassemble (fixedDecoder 1 "nop" []) 0 4 (fuel + 2) DisassemblyUnit.UNIT_INSN 0 3
        (Hutch_Emit.store []) = Outcome.outOfBounds := by
  rfl

/-- C11 (as amended): for a decoder with positive lengths (instructions that start in the
image ending inside the 64-bit address space) and counters that stay in the range of the
C++ `int` (the image lies below address `2 ^ 31`, or `amount` and, for `UNIT_INSN`, `offset`
plus an instruction length do), `disassemble` returns once its fuel exceeds the image end,
always so with the printing sink, and no counter overflows.  The value returned is the
number of units consumed: with `UNIT_INSN` the number of instructions decoded, at most
`amount`; with `UNIT_BYTE` the bytes of the instructions decoded, below `amount` before the
last of them was decoded (so possibly above `amount` after it).  It is below `amount` only
when the address reached the image end. -/
theorem disassemble_returns_units_consumed (d : Decoder) (baseaddr imagesize fuel : Nat)
    (unit : DisassemblyUnit) (offset amount : Nat) (emitter : Hutch_Emit)
    (hpos : ∀ a, 0 < d.instructionLength a)
    (hfit : ∀ a, a < (baseaddr + imagesize) % 2 ^ 64 →
      (a : Int) + d.instructionLength a < 2 ^ 64)
    (hcnt : (∀ a, a < (baseaddr + imagesize) % 2 ^ 64 →
        (a : Int) + d.instructionLength a < 2 ^ 31) ∨
      ((∀ a, a < (baseaddr + imagesize) % 2 ^ 64 →
          (amount : Int) + d.instructionLength a < 2 ^ 31) ∧
        (unit = DisassemblyUnit.UNIT_INSN → ∀ a, a < (baseaddr + imagesize) % 2 ^ 64 →
          (offset : Int) + d.instructionLength a < 2 ^ 31)))
    (hfuel : (baseaddr + imagesize) % 2 ^ 64 < fuel) :
    disassemble d baseaddr imagesize fuel unit offset amount emitter ≠ Outcome.outOfFuel ∧
    disassemble d baseaddr imagesize fuel unit offset amount emitter ≠ Outcome.intOverflow ∧
    (emitter = Hutch_Emit.emitdefault →
      ∃ r, disassemble d baseaddr imagesize fuel unit offset amount emitter =
        Outcome.returned r) ∧
    ∀ r, disassemble d baseaddr imagesize fuel unit offset amount emitter =
        Outcome.returned r →
      ∃ start, startAddr d baseaddr imagesize fuel unit offset = SkipOutcome.reached start ∧
        (unit = DisassemblyUnit.UNIT_INSN →
          r.units = r.decoded.length ∧ r.units ≤ amount) ∧
        (unit = DisassemblyUnit.UNIT_BYTE → r.units = lengthSum d r.decoded ∧
          ∀ a, r.decoded.getLast? = some a → r.units - d.instructionLength a < amount) ∧
        (r.units < amount → (r.decoded = [] → (baseaddr + imagesize) % 2 ^ 64 ≤ start) ∧
          ∀ a, r.decoded.getLast? = some a →
            (((baseaddr + imagesize) % 2 ^ 64 : Nat) : Int) ≤ a + d.instructionLength a) := by
  have hlast : (baseaddr + imagesize) % 2 ^ 64 < 2 ^ 64 := Nat.mod_lt _ (by norm_num)
  obtain ⟨start, hstart⟩ : ∃ start,
      startAddr d baseaddr imagesize fuel unit offset = SkipOutcome.reached start := by
    unfold startAddr
    split_ifs with hu
    · refine skipLoop_returns d hpos offset _ hlast hfit ?_ fuel 0 baseaddr (by omega)
        (le_refl 0) (by omega)
      rcases hcnt with h | h
      · exact Or.inl h
      · exact Or.inr (h.2 hu)
    · exact ⟨_, rfl⟩
  have hcnt2 : (∀ a, a < (baseaddr + imagesize) % 2 ^ 64 →
        (a : Int) + d.instructionLength a < 2 ^ 31) ∨
      (∀ a, a < (baseaddr + imagesize) % 2 ^ 64 →
        (amount : Int) + d.instructionLength a < 2 ^ 31) := by
    rcases hcnt with h | h
    · exact Or.inl h
    · exact Or.inr h.1
  rw [disassemble_eq, hstart]
  simp only
  obtain ⟨h1, h1b, h2, h3⟩ := decodeLoop_units d hpos unit amount _ hlast hfit hcnt2 fuel 0
    start [] emitter (by omega) (le_refl 0) (by omega) (fun _ => by omega)
  refine ⟨h1, h1b, h2, ?_⟩
  intro r hr
  obtain ⟨tail, ht, hI, hB, hE⟩ := h3 r hr
  rw [List.nil_append] at ht
  subst ht
  refine ⟨start, rfl, ?_, ?_, hE⟩
  · intro hu
    have := hI hu
    constructor <;> omega
  · intro hu
    have := hB hu
    exact ⟨by omega, this.2⟩

theorem disassemble_returns_units_consumed_witness :
    disassemble (fixedDecoder 2 "nop" []) 0 8 9 DisassemblyUnit.UNIT_BYTE 0 3
        Hutch_Emit.emitdefault ≠ Outcome.outOfFuel ∧
    disassemble (fixedDecoder 2 "nop" []) 0 8 9 DisassemblyUnit.UNIT_BYTE 0 3
        Hutch_Emit.emitdefault ≠ Outcome.intOverflow ∧
    ∃ r, disassemble (fixedDecoder 2 "nop" []) 0 8 9 DisassemblyUnit.UNIT_BYTE 0 3
        Hutch_Emit.emitdefault = Outcome.returned r :=
  have h := disassemble_returns_units_consumed (fixedDecoder 2 "nop" []) 0 8 9
    DisassemblyUnit.UNIT_BYTE 0 3 Hutch_Emit.emitdefault
    (fun _ => show (0 : Int) < 2 by decide)
    (fun a ha => by
      show (a : Int) + 2 < 2 ^ 64
      have h8 : a < 8 := ha
      omega)
    (Or.inl (fun a ha => by
      show (a : Int) + 2 < 2 ^ 31
      have h8 : a < 8 := ha
      omega))
    (by decide)
  ⟨h.1, h.2.1, h.2.2.1 rfl⟩

/-- C11 (counterexample): with two-byte instructions on an eight-byte image,
`disassemble (UNIT_BYTE, 0, 1)` returns 2, which is above `amount = 1`. -/
theorem disassemble_byte_returns_above_amount :
    disassemble (fixedDecoder 2 "nop" []) 0 8 9 DisassemblyUnit.UNIT_BYTE 0 1
        Hutch_Emit.emitdefault =
      Outcome.returned { units := 2, decoded := [0], emit := Hutch_Emit.emitdefault } ∧
    ¬ ((2 : Int) ≤ ((1 : Nat) : Int)) := by
  decide

/-- C12: with the image of 4 bytes at base 1 and one-byte instructions,
`disassemble (UNIT_BYTE, 2^64 - 1, 1)` has `offset` far above the image size, yet it does not
return 0 without decoding: `addr + offset` wraps to address 0, which is below `lastaddr`, so
one instruction is decoded there and 1 is returned. -/
theorem disassemble_byte_offset_wraps :
    4 ≤ 2 ^ 64 - 1 ∧
    disassemble (fixedDecoder 1 "nop" []) 1 4 8 DisassemblyUnit.UNIT_BYTE (2 ^ 64 - 1) 1
        Hutch_Emit.emitdefault =
      Outcome.returned { units := 1, decoded := [0], emit := Hutch_Emit.emitdefault } ∧
    disassemble (fixedDecoder 1 "nop" []) 1 4 8 DisassemblyUnit.UNIT_BYTE (2 ^ 64 - 1) 1
        (Hutch_Emit.store []) =
      Outcome.returned { units := 1, decoded := [0],
                         emit := Hutch_Emit.store [⟨0, "nop ", []⟩] } := by
  decide

/-- C14 (as amended): a reported length of 0 is not treated as an error.  At an address
`addr` below the image end with length 0, on the printing sink, with counters in the range
of the C++ `int` (below `2 ^ 31`): the second loop in `UNIT_INSN` mode decodes `addr` again
until the counter reaches `amount` and then returns `amount`; in `UNIT_BYTE` mode with the
counter below `amount` it never ends, whatever the fuel; and the first loop with fewer than
`offset` bytes skipped never ends either. -/
theorem zero_length_is_not_fatal (d : Decoder) (amount lastaddr addr : Nat)
    (hlen : d.instructionLength addr = 0) (haddr : addr < lastaddr) (h64 : addr < 2 ^ 64) :
    (∀ (fuel i : Nat) (decoded : List Nat), i ≤ amount → amount < 2 ^ 31 →
      amount - i < fuel →
      decodeLoop d DisassemblyUnit.UNIT_INSN amount lastaddr fuel i addr decoded
          Hutch_Emit.emitdefault =
        Outcome.returned { units := amount,
                           decoded := decoded ++ List.replicate (amount - i) addr,
                           emit := Hutch_Emit.emitdefault }) ∧
    (∀ (fuel i : Nat) (decoded : List Nat), i < amount → i < 2 ^ 31 →
      decodeLoop d DisassemblyUnit.UNIT_BYTE amount lastaddr fuel i addr decoded
          Hutch_Emit.emitdefault = Outcome.outOfFuel) ∧
    (∀ (fuel moveaddr offset : Nat), moveaddr < offset → moveaddr < 2 ^ 31 →
      skipLoop d offset lastaddr fuel moveaddr addr = SkipOutcome.outOfFuel) := by
  have hadd : addrPlus addr 0 = addr := by
    have := addrPlus_cast addr 0 (by omega) (by omega)
    omega
  refine ⟨?_, ?_, ?_⟩
  · intro fuel
    induction fuel with
    | zero => intro i decoded _ _ h; omega
    | succ f ih =>
      intro i decoded hi ha31 hfuel
      rw [decodeLoop_succ]
      by_cases hc : i < amount
      · have h1 : toUintb (i : Int) < amount ∧ addr < lastaddr := by
          rw [toUintb_natCast i (by omega)]; exact ⟨hc, haddr⟩
        have hfits : fitsInt ((i : Int) + 1) = true := fitsInt_of _ (by omega) (by omega)
        simp only [h1, and_self, if_true, decodeOne_emitdefault, hlen, hadd]
        rw [if_neg (show ¬ (DisassemblyUnit.UNIT_INSN = DisassemblyUnit.UNIT_BYTE) by decide),
          if_pos hfits]
        have h2 := ih (i + 1) (decoded ++ [addr]) (by omega) ha31 (by omega)
        push_cast at h2
        rw [h2]
        have h3 : amount - i = (amount - (i + 1)) + 1 := by omega
        rw [h3, List.replicate_succ]
        simp
      · have h1 : ¬ (toUintb (i : Int) < amount ∧ addr < lastaddr) := by
          rw [toUintb_natCast i (by omega)]; omega
        have h2 : i = amount := by omega
        rw [if_neg h1]
        subst h2
        simp
  · intro fuel
    induction fuel with
    | zero => intro i decoded _ _; rfl
    | succ f ih =>
      intro i decoded hi hi31
      rw [decodeLoop_succ]
      have h1 : toUintb (i : Int) < amount ∧ addr < lastaddr := by
        rw [toUintb_natCast i (by omega)]; exact ⟨hi, haddr⟩
      have hfits : fitsInt ((i : Int) + 0) = true := fitsInt_of _ (by omega) (by omega)
      rw [if_pos h1, decodeOne_emitdefault]
      simp only [hlen, hadd]
      rw [if_pos trivial, if_pos hfits, add_zero]
      exact ih i (decoded ++ [addr]) hi hi31
  · intro fuel
    induction fuel with
    | zero => intro moveaddr offset _ _; rfl
    | succ f ih =>
      intro moveaddr offset hm hm31
      rw [skipLoop_succ]
      have h1 : toUintb (moveaddr : Int) < offset ∧ addr < lastaddr := by
        rw [toUintb_natCast moveaddr (by omega)]; exact ⟨hm, haddr⟩
      have hfits : fitsInt ((moveaddr : Int) + 0) = true :=
        fitsInt_of _ (by omega) (by omega)
      rw [if_pos h1, hlen, if_pos hfits, hadd, add_zero]
      exact ih moveaddr offset hm hm31

theorem zero_length_is_not_fatal_witness :
    decodeLoop (fixedDecoder 0 "nop" []) DisassemblyUnit.UNIT_INSN 2 4 3 (0 : Nat) 0 []
        Hutch_Emit.emitdefault =
      Outcome.returned { units := (2 : Nat), decoded := [] ++ List.replicate (2 - 0) 0,
                         emit := Hutch_Emit.emitdefault } ∧
    decodeLoop (fixedDecoder 0 "nop" []) DisassemblyUnit.UNIT_BYTE 2 4 1000 (0 : Nat) 0 []
        Hutch_Emit.emitdefault = Outcome.outOfFuel :=
  have h := zero_length_is_not_fatal (fixedDecoder 0 "nop" []) 2 4 0 rfl (by decide)
    (by decide)
  ⟨h.1 3 0 [] (by decide) (by decide) (by decide), h.2.1 1000 0 [] (by decide) (by decide)⟩

/-- C14 (counterexample): with length 0 everywhere on a four-byte image,
`disassemble (UNIT_INSN, 0, 2)` does not abort: it decodes address 0 twice and returns 2. -/
theorem disassemble_zero_length_decodes_again :
    (fixedDecoder 0 "nop" []).instructionLength 0 ≤ 0 ∧
    disassemble (fixedDecoder 0 "nop" []) 0 4 5 DisassemblyUnit.UNIT_INSN 0 2
        Hutch_Emit.emitdefault =
      Outcome.returned { units := 2, decoded := [0, 0], emit := Hutch_Emit.emitdefault } := by
  decide

/-- C15: from fresh static variables, for every budget `B` and every sequence of
`disassemble_iter` calls that all pass `B`, at offsets inside the image, with positive
`int4` lengths (`B` being at most `2^64 - 2^31`, or the lengths requested adding up to less
than `2^64`, so that the 64-bit counter does not wrap): the calls return (always so on the
printing sink), the values
returned add up to at most `B`, and every call by which the cumulative length of the
instructions requested has passed `B` returns 0. -/
theorem disassemble_iter_budget (d : Decoder) (baseaddr imagesize B : Nat)
    (offsets : List Nat) (emit : Hutch_Emit)
    (hin : ∀ o ∈ offsets, addrPlus baseaddr (o : Int) < (baseaddr + imagesize) % 2 ^ 64 ∧
      0 < d.instructionLength (addrPlus baseaddr (o : Int)) ∧
      d.instructionLength (addrPlus baseaddr (o : Int)) < 2 ^ 31)
    (hwrap : (B : Int) + 2 ^ 31 ≤ 2 ^ 64 ∨
      lengthSum d (offsets.map (fun o : Nat => addrPlus baseaddr (o : Int))) < 2 ^ 64) :
    (∃ rets s1, iterCalls d baseaddr imagesize B { bufcheck := 0, ninsnbytes := 0 }
      Hutch_Emit.emitdefault offsets = some (rets, s1, Hutch_Emit.emitdefault)) ∧
    ∀ (rets : List Nat) (s1 : IterStatics) (emit1 : Hutch_Emit),
      iterCalls d baseaddr imagesize B { bufcheck := 0, ninsnbytes := 0 } emit offsets =
        some (rets, s1, emit1) →
      rets.length = offsets.length ∧ rets.sum ≤ B ∧
      ∀ (k r : Nat), rets[k]? = some r →
        (B : Int) <
          lengthSum d ((offsets.take (k + 1)).map (fun o : Nat => addrPlus baseaddr (o : Int))) →
        r = 0 := by
  refine ⟨iterCalls_emitdefault d baseaddr imagesize B offsets _, ?_⟩
  intro rets s1 emit1 h
  obtain ⟨s2, h2⟩ := iterCalls_fresh d baseaddr imagesize B emit offsets rets s1 emit1 h
  obtain ⟨i1, i2, _, i4⟩ := iterCalls_budget d baseaddr imagesize B offsets 0 0 emit rets s2
    emit1 hin (le_refl 0) (by intro _; rfl) (by intro hc; omega)
    (by rcases hwrap with h3 | h3
        · exact Or.inl h3
        · exact Or.inr (by omega)) h2
  refine ⟨i1, ?_, ?_⟩
  · have := i2 (by omega)
    omega
  · intro k r hk hlt
    exact i4 k r hk (by omega)

theorem disassemble_iter_budget_witness :
    iterCalls (fixedDecoder 1 "nop" []) 0 4 2 { bufcheck := 0, ninsnbytes := 0 }
        Hutch_Emit.emitdefault [0, 1, 2] =
      some ([1, 1, 0], { bufcheck := 2, ninsnbytes := 3 }, Hutch_Emit.emitdefault) ∧
    ([1, 1, 0] : List Nat).length = ([0, 1, 2] : List Nat).length ∧
    ([1, 1, 0] : List Nat).sum ≤ 2 :=
  have h := (disassemble_iter_budget (fixedDecoder 1 "nop" []) 0 4 2 [0, 1, 2]
    Hutch_Emit.emitdefault (by decide) (Or.inl (by decide))).2 [1, 1, 0]
    { bufcheck := 2, ninsnbytes := 3 } Hutch_Emit.emitdefault (by decide)
  ⟨by decide, h.1, h.2.1⟩

/-- C16 (as amended): the budget counter is shared by all sessions.  With the static
variables at budget `B` and count `n`, let a first session be about to decode, inside its
image, an instruction of length `L1` that fits the budget (`n + L1 ≤ B`): its call returns
`L1`.  If a second session, with the same budget value, first decodes inside its own image
an instruction of length `L2` with `B < n + L1 + L2`, the first session's call returns 0
instead. -/
theorem disassemble_iter_budget_is_shared (d1 d2 : Decoder)
    (base1 size1 base2 size2 B n o1 o2 a1 a2 : Nat) (L1 L2 : Int)
    (ha1 : addrPlus base1 (o1 : Int) = a1) (hL1 : d1.instructionLength a1 = L1)
    (ha2 : addrPlus base2 (o2 : Int) = a2) (hL2 : d2.instructionLength a2 = L2)
    (hin1 : a1 < (base1 + size1) % 2 ^ 64) (hin2 : a2 < (base2 + size2) % 2 ^ 64)
    (hp1 : 0 < L1) (hb1 : L1 < 2 ^ 31) (hp2 : 0 < L2) (hb2 : L2 < 2 ^ 31)
    (hfit : (n : Int) + L1 ≤ B) (hover : (B : Int) < n + L1 + L2)
    (hwrap : (n : Int) + L1 + L2 < 2 ^ 64) :
    (∃ r, disassemble_iter d1 base1 size1 { bufcheck := B, ninsnbytes := n } o1 B
        Hutch_Emit.emitdefault = some r ∧ (r.ret : Int) = L1) ∧
    (∃ r2 r, disassemble_iter d2 base2 size2 { bufcheck := B, ninsnbytes := n } o2 B
        Hutch_Emit.emitdefault = some r2 ∧
      disassemble_iter d1 base1 size1 r2.statics o1 B Hutch_Emit.emitdefault = some r ∧
      r.ret = 0) := by
  have hn : n ≤ B := by omega
  constructor
  · rw [disassemble_iter_step d1 base1 size1 o1 B n _ a1 L1 hn ha1 hL1 hin1 hp1 hb1 (by omega),
      decodeOne_emitdefault]
    refine ⟨_, rfl, ?_⟩
    simp only [hfit, if_true]
    omega
  · rw [disassemble_iter_step d2 base2 size2 o2 B n _ a2 L2 hn ha2 hL2 hin2 hp2 hb2 (by omega),
      decodeOne_emitdefault]
    simp only [Option.map_some']
    by_cases h2 : (n : Int) + L2 ≤ B
    · have h3 : ¬ ((((n : Int) + L2).toNat : Int) + L1 ≤ B) := by omega
      have hs : disassemble_iter d1 base1 size1
          { bufcheck := B, ninsnbytes := ((n : Int) + L2).toNat } o1 B
          Hutch_Emit.emitdefault =
          some { ret := 0,
                 statics := { bufcheck := B,
                              ninsnbytes := ((((n : Int) + L2).toNat : Int) + L1).toNat },
                 emit := Hutch_Emit.emitdefault } := by
        rw [disassemble_iter_step d1 base1 size1 o1 B _ _ a1 L1 (by omega) ha1 hL1 hin1 hp1 hb1
          (by omega), decodeOne_emitdefault]
        simp only [Option.map_some', h3, if_false]
      exact ⟨_, _, rfl, hs, rfl⟩
    · have hs : disassemble_iter d1 base1 size1
          { bufcheck := B, ninsnbytes := ((n : Int) + L2).toNat } o1 B
          Hutch_Emit.emitdefault =
          some { ret := 0,
                 statics := { bufcheck := B, ninsnbytes := ((n : Int) + L2).toNat },
                 emit := Hutch_Emit.emitdefault } :=
        disassemble_iter_exceeded d1 base1 size1 o1 B _ _ (by omega)
      exact ⟨_, _, rfl, hs, rfl⟩

theorem disassemble_iter_budget_is_shared_witness :
    (∃ r, disassemble_iter (fixedDecoder 1 "nop" []) 0 4 { bufcheck := 2, ninsnbytes := 1 } 1 2
        Hutch_Emit.emitdefault = some r ∧ (r.ret : Int) = 1) ∧
    (∃ r2 r, disassemble_iter (fixedDecoder 1 "ret" []) 100 4
        { bufcheck := 2, ninsnbytes := 1 } 0 2 Hutch_Emit.emitdefault = some r2 ∧
      disassemble_iter (fixedDecoder 1 "nop" []) 0 4 r2.statics 1 2
        Hutch_Emit.emitdefault = some r ∧
      r.ret = 0) :=
  disassemble_iter_budget_is_shared (fixedDecoder 1 "nop" []) (fixedDecoder 1 "ret" [])
    0 4 100 4 2 1 1 0 1 100 1 1 (by decide) rfl (by decide) rfl (by decide) (by decide)
    (by decide) (by decide) (by decide) (by decide) (by decide) (by decide) (by decide)

/-- C16 (counterexample): budget 2, one-byte instructions, fresh static variables.  The
first session's second call returns 1 when no other session runs, and 0 when a call of a
second session, on another image with the same budget value, comes in between. -/
theorem disassemble_iter_other_session_changes_return :
    disassemble_iter (fixedDecoder 1 "nop" []) 0 4 { bufcheck := 0, ninsnbytes := 0 } 0 2
        Hutch_Emit.emitdefault =
      some { ret := 1, statics := { bufcheck := 2, ninsnbytes := 1 },
             emit := Hutch_Emit.emitdefault } ∧
    disassemble_iter (fixedDecoder 1 "nop" []) 0 4 { bufcheck := 2, ninsnbytes := 1 } 1 2
        Hutch_Emit.emitdefault =
      some { ret := 1, statics := { bufcheck := 2, ninsnbytes := 2 },
             emit := Hutch_Emit.emitdefault } ∧
    disassemble_iter (fixedDecoder 1 "ret" []) 100 4 { bufcheck := 2, ninsnbytes := 1 } 0 2
        Hutch_Emit.emitdefault =
      some { ret := 1, statics := { bufcheck := 2, ninsnbytes := 2 },
             emit := Hutch_Emit.emitdefault } ∧
    disassemble_iter (fixedDecoder 1 "nop" []) 0 4 { bufcheck := 2, ninsnbytes := 2 } 1 2
        Hutch_Emit.emitdefault =
      some { ret := 0, statics := { bufcheck := 2, ninsnbytes := 3 },
             emit := Hutch_Emit.emitdefault } := by
  decide

/-- C17 (as amended): `operator()` returns the `index`-th record when `index` is below the
number of records; for any other `index` it reads outside the vector, which is undefined;
it never fails with an index-out-of-range error. -/
theorem operatorCall_unchecked (v : List Instruction) (index : Nat) :
    (∀ h : index < v.length, operatorCall v index = ReadOutcome.record (v.get ⟨index, h⟩)) ∧
    (v.length ≤ index → operatorCall v index = ReadOutcome.undefined) ∧
    operatorCall v index ≠ ReadOutcome.indexOutOfRange := by
  unfold operatorCall
  refine ⟨?_, ?_, ?_⟩
  · intro h
    rw [List.getElem?_eq_getElem h]
    rfl
  · intro h
    rw [List.getElem?_eq_none h]
  · cases v[index]? <;> simp

theorem operatorCall_unchecked_witness :
    operatorCall [⟨3, "ret ", []⟩, ⟨5, "nop ", [opA]⟩] 1 =
        ReadOutcome.record ⟨5, "nop ", [opA]⟩ ∧
    operatorCall [⟨3, "ret ", []⟩, ⟨5, "nop ", [opA]⟩] 2 = ReadOutcome.undefined :=
  ⟨(operatorCall_unchecked [⟨3, "ret ", []⟩, ⟨5, "nop ", [opA]⟩] 1).1 (by decide),
    (operatorCall_unchecked [⟨3, "ret ", []⟩, ⟨5, "nop ", [opA]⟩] 2).2.1 (by decide)⟩

/-- C17 (counterexample): on the one-record store, index 1 is not below the count, and the
read does not end in the index-out-of-range error: it is a read outside the vector. -/
theorem operatorCall_past_end_no_error :
    ([⟨0, "nop ", []⟩] : List Instruction).length ≤ 1 ∧
    operatorCall [⟨0, "nop ", []⟩] 1 ≠ ReadOutcome.indexOutOfRange ∧
    operatorCall [⟨0, "nop ", []⟩] 1 = ReadOutcome.undefined := by
  decide

/-- C18: for the empty image at base 0 (`bufsize = 0`), `loadFill` of one byte at address 0
does not write 0: `bufsize - 1` wraps, `max` becomes `2^64 - 1`, no address counts as
outside the window, and `buf[0]` is read although `buf` holds no byte.  With a base other
than 0 the same request is answered with 0. -/
theorem loadFill_empty_image_reads_buf :
    loadFillByte { baseaddr := 0, buf := [], bufsize := 0 } 0 0 = none ∧
    loadFill { baseaddr := 0, buf := [], bufsize := 0 } 1 0 = none ∧
    loadFill { baseaddr := 4, buf := [], bufsize := 0 } 1 0 = some [0] := by
  decide

/-- C19: the store `[(5, "nop ", []), (9, "ret ", [])]` is reachable, and `dumpPcode` at
address 9 changes the record of address 5: the micro-operation is appended to the front
record, whose list is empty, and the record of address 9 stays as it was. -/
theorem dumpPcode_changes_other_address :
    run [Emission.asm 9 "ret" "", Emission.asm 5 "nop" ""] [] =
      some [⟨5, "nop ", []⟩, ⟨9, "ret ", []⟩] ∧
    dumpPcode [⟨5, "nop ", []⟩, ⟨9, "ret ", []⟩] 9 opA =
      some [⟨5, "nop ", [opA]⟩, ⟨9, "ret ", []⟩] := by
  decide

/-- C20: on the reachable store `[(0, "nop ", [opA])]` and the address 7, above the stored
one, both `dumpAsm` and `dumpPcode` reach the insertion check with
`index = lower_bound = 1 = size ()`: the position read is not a valid one. -/
theorem insertion_check_index_equals_size :
    run [Emission.asm 0 "nop" "", Emission.pcode 0 opA] [] = some [⟨0, "nop ", [opA]⟩] ∧
    dumpAsmLoop [⟨0, "nop ", [opA]⟩] 7 "ret " = none ∧
    dumpPcodeLoop [⟨0, "nop ", [opA]⟩] 7 opB = (false, [⟨0, "nop ", [opA]⟩]) ∧
    lower_bound [⟨0, "nop ", [opA]⟩] 7 = ([⟨0, "nop ", [opA]⟩] : List Instruction).length ∧
    ([⟨0, "nop ", [opA]⟩] : List Instruction)[lower_bound [⟨0, "nop ", [opA]⟩] 7]? = none ∧
    dumpAsm [⟨0, "nop ", [opA]⟩] 7 "ret" "" = none ∧
    dumpPcode [⟨0, "nop ", [opA]⟩] 7 opB = none := by
  decide

/-- C21 (as amended): for an instruction of positive `int4` length at the requested
address, a call of `disassemble_iter` that returns 0 because the count at entry is above the
budget, or because the offset is at or past the image end, leaves the emitter as it was;
a call that returns 0 because this instruction takes the count past the budget has handed
the instruction to the emitter first; and a returned 0 arises in no other way. -/
theorem disassemble_iter_zero_return (d : Decoder) (baseaddr imagesize : Nat)
    (s : IterStatics) (offset bufsize : Nat) (emitter : Hutch_Emit)
    (hpos : 0 < d.instructionLength (addrPlus baseaddr (offset : Int)))
    (hint4 : d.instructionLength (addrPlus baseaddr (offset : Int)) < 2 ^ 31) :
    ((bufsize < entryCount s bufsize ∨
        (baseaddr + imagesize) % 2 ^ 64 ≤ addrPlus baseaddr (offset : Int)) →
      disassemble_iter d baseaddr imagesize s offset bufsize emitter =
        some { ret := 0,
               statics := { bufcheck := bufsize, ninsnbytes := entryCount s bufsize },
               emit := emitter }) ∧
    (entryCount s bufsize ≤ bufsize →
      addrPlus baseaddr (offset : Int) < (baseaddr + imagesize) % 2 ^ 64 →
      ∀ emit1, decodeOne d emitter (addrPlus baseaddr (offset : Int)) = some emit1 →
      bufsize < toUintb ((entryCount s bufsize : Int) +
        d.instructionLength (addrPlus baseaddr (offset : Int))) →
      disassemble_iter d baseaddr imagesize s offset bufsize emitter =
        some { ret := 0,
               statics := { bufcheck := bufsize,
                            ninsnbytes := toUintb ((entryCount s bufsize : Int) +
                              d.instructionLength (addrPlus baseaddr (offset : Int))) },
               emit := emit1 }) ∧
    (∀ r, disassemble_iter d baseaddr imagesize s offset bufsize emitter = some r →
      r.ret = 0 →
      (r.emit = emitter ∧ (bufsize < entryCount s bufsize ∨
        (baseaddr + imagesize) % 2 ^ 64 ≤ addrPlus baseaddr (offset : Int))) ∨
      (decodeOne d emitter (addrPlus baseaddr (offset : Int)) = some r.emit ∧
        entryCount s bufsize ≤ bufsize ∧
        addrPlus baseaddr (offset : Int) < (baseaddr + imagesize) % 2 ^ 64 ∧
        bufsize < r.statics.ninsnbytes)) := by
  have hret : toUint (d.instructionLength (addrPlus baseaddr (offset : Int))) ≠ 0 := by
    have := toUint_cast (d.instructionLength (addrPlus baseaddr (offset : Int))) (by omega)
      (by omega)
    omega
  rw [disassemble_iter_cases]
  refine ⟨?_, ?_, ?_⟩
  · intro h
    rw [if_pos h]
  · intro h1 h2 emit1 hdec hover
    rw [if_neg (by omega), hdec]
    simp only [Option.map_some', hover, if_true]
  · intro r hr h0
    by_cases hc : bufsize < entryCount s bufsize ∨
        (baseaddr + imagesize) % 2 ^ 64 ≤ addrPlus baseaddr (offset : Int)
    · rw [if_pos hc] at hr
      simp only [Option.some.injEq] at hr
      subst hr
      exact Or.inl ⟨rfl, hc⟩
    · rw [if_neg hc] at hr
      cases hdec : decodeOne d emitter (addrPlus baseaddr (offset : Int)) with
      | none => rw [hdec] at hr; cases hr
      | some emit1 =>
        rw [hdec] at hr
        simp only [Option.map_some', Option.some.injEq] at hr
        subst hr
        simp only at h0
        right
        refine ⟨rfl, by omega, by omega, ?_⟩
        by_contra hcon
        rw [if_neg hcon] at h0
        exact hret h0

theorem disassemble_iter_zero_return_witness :
    disassemble_iter (fixedDecoder 2 "nop" []) 0 8 { bufcheck := 0, ninsnbytes := 0 } 0 1
        (Hutch_Emit.store []) =
      some { ret := 0, statics := { bufcheck := 1, ninsnbytes := 2 },
             emit := Hutch_Emit.store [⟨0, "nop ", []⟩] } ∧
    disassemble_iter (fixedDecoder 2 "nop" []) 0 8 { bufcheck := 1, ninsnbytes := 2 } 2 1
        (Hutch_Emit.store [⟨0, "nop ", []⟩]) =
      some { ret := 0, statics := { bufcheck := 1, ninsnbytes := 2 },
             emit := Hutch_Emit.store [⟨0, "nop ", []⟩] } :=
  ⟨(disassemble_iter_zero_return (fixedDecoder 2 "nop" []) 0 8
      { bufcheck := 0, ninsnbytes := 0 } 0 1 (Hutch_Emit.store [])
      (show (0 : Int) < 2 by decide) (show (2 : Int) < 2 ^ 31 by decide)).2.1
      (by decide) (by decide) (Hutch_Emit.store [⟨0, "nop ", []⟩]) (by decide) (by decide),
    (disassemble_iter_zero_return (fixedDecoder 2 "nop" []) 0 8
      { bufcheck := 1, ninsnbytes := 2 } 2 1 (Hutch_Emit.store [⟨0, "nop ", []⟩])
      (show (0 : Int) < 2 by decide) (show (2 : Int) < 2 ^ 31 by decide)).1
      (Or.inl (by decide))⟩

/-- C21 (counterexample): budget 2, count 2 after two one-byte steps; the third step, at
offset 2 inside the four-byte image, returns 0 for the budget, yet the empty store passed as
emitter has received the instruction of address 2. -/
theorem disassemble_iter_failed_step_changes_store :
    disassemble_iter (fixedDecoder 1 "nop" []) 0 4 { bufcheck := 2, ninsnbytes := 2 } 2 2
        (Hutch_Emit.store []) =
      some { ret := 0, statics := { bufcheck := 2, ninsnbytes := 3 },
             emit := Hutch_Emit.store [⟨2, "nop ", []⟩] } ∧
    Hutch_Emit.store [⟨2, "nop ", []⟩] ≠ Hutch_Emit.store [] := by
  decide

/-- C22: with the image of 4 bytes at base 6 and one-byte instructions,
`disassemble (UNIT_BYTE, 2^64 - 6, 20)` terminates, but its second loop runs 10 times, more
than the image size: `addr + offset` wraps to address 0, below the image base, and the loop
decodes every address from 0 up to the image end. -/
theorem disassemble_wrapped_start_decodes_more_than_image :
    disassemble (fixedDecoder 1 "nop" []) 6 4 11 DisassemblyUnit.UNIT_BYTE (2 ^ 64 - 6) 20
        Hutch_Emit.emitdefault =
      Outcome.returned { units := 10, decoded := [0, 1, 2, 3, 4, 5, 6, 7, 8, 9],
                         emit := Hutch_Emit.emitdefault } ∧
    ¬ (([0, 1, 2, 3, 4, 5, 6, 7, 8, 9] : List Nat).length ≤ 4) := by
  decide

end Hutch
